import Mathlib

/-!
From1992: a grid raycaster (`src/main.c`)

Shallow embedding of the grid map, the collision test, the DDA ray caster,
the projection / shading arithmetic, the colour lookup and darkening, the
stripe loop, the movement step and the rotation step of `main.c`.

Numbers.  The C code computes in `f64` and stores the camera in `f32`.
Finite floating-point values are rationals; the IEEE special values that the
code can produce by dividing by a zero direction component (`+inf`, `-inf`,
`NaN`) are separate constructors of `f64`.  Zero is unsigned.  Every
operation is evaluated in the type of its operands after the usual
conversions and rounded on its own (no extended precision, no fused
multiply-add).  Rounding to nearest, ties to even, to 53 (`f64.round`) or 24
(`f32.round`) significant bits with an unbounded exponent range is applied
where the value the program stores depends on it: the `f32` camera fields,
the elapsed time, the movement and rotation arithmetic, the ray direction of
a column, the numerator and the quotient of `perpWallDist`, the quotient of
the stripe height and the product of the darkening.  The DDA side distances
and the shade factor are computed without rounding: what is proved of them
holds for every outcome of the comparisons, or is monotone in the distance.
`i32` values are mathematical integers; a cast of a double to `i32` or `u32`
is defined only when the truncated value fits.
-/

namespace From1992

/-! ## Constants -/

/-- Screen width: `#define WIDTH 1280`. -/
def WIDTH : Int := 1280

/-- Screen height: `#define HEIGHT 720`. -/
def HEIGHT : Int := 720

/-- Movement speed in cells per second: `#define MOVEMENT_SPEED 1.5`. -/
def MOVEMENT_SPEED : ℚ := 3 / 2

/-! ## Extended numbers -/

/-- The values of a C `double`: exact finite values and the IEEE special values. -/
inductive f64 where
  | fin (q : ℚ)
  | pinf
  | ninf
  | nan
deriving DecidableEq

namespace f64

/-- IEEE addition on the extended values. -/
def add : f64 → f64 → f64
  | fin a, fin b => fin (a + b)
  | fin _, pinf => pinf
  | fin _, ninf => ninf
  | pinf, fin _ => pinf
  | pinf, pinf => pinf
  | ninf, fin _ => ninf
  | ninf, ninf => ninf
  | _, _ => nan

/-- IEEE negation. -/
def neg : f64 → f64
  | fin a => fin (-a)
  | pinf => ninf
  | ninf => pinf
  | nan => nan

/-- IEEE subtraction. -/
def sub (a b : f64) : f64 := add a (neg b)

/-- An infinity with the sign of `q`; `NaN` for `q = 0` (the case `0 * inf`). -/
def signedInf (q : ℚ) : f64 :=
  if 0 < q then pinf else if q < 0 then ninf else nan

/-- IEEE multiplication on the extended values. -/
def mul : f64 → f64 → f64
  | fin a, fin b => fin (a * b)
  | fin a, pinf => signedInf a
  | fin a, ninf => signedInf (-a)
  | pinf, fin b => signedInf b
  | ninf, fin b => signedInf (-b)
  | pinf, pinf => pinf
  | ninf, ninf => pinf
  | pinf, ninf => ninf
  | ninf, pinf => ninf
  | _, _ => nan

/-- IEEE division on the extended values; a finite nonzero value divided by
zero is an infinity, `0 / 0` and `inf / inf` are `NaN`. -/
def div : f64 → f64 → f64
  | fin a, fin b => if b = 0 then signedInf a else fin (a / b)
  | fin _, pinf => fin 0
  | fin _, ninf => fin 0
  | pinf, fin b => if 0 ≤ b then pinf else ninf
  | ninf, fin b => if 0 ≤ b then ninf else pinf
  | _, _ => nan

/-- The C comparison `a < b`: false as soon as one side is `NaN`. -/
def lt : f64 → f64 → Bool
  | fin a, fin b => decide (a < b)
  | fin _, pinf => true
  | ninf, fin _ => true
  | ninf, pinf => true
  | _, _ => false

/-- The C comparison `a <= b`: false as soon as one side is `NaN`. -/
def le : f64 → f64 → Bool
  | fin a, fin b => decide (a ≤ b)
  | fin _, pinf => true
  | ninf, fin _ => true
  | ninf, pinf => true
  | pinf, pinf => true
  | ninf, ninf => true
  | _, _ => false

/-- The libm call `sqrt`, given its action `sq` on finite non-negative values. -/
def sqrt (sq : ℚ → ℚ) : f64 → f64
  | fin a => if a < 0 then nan else fin (sq a)
  | pinf => pinf
  | _ => nan

/-- The cast `(i32)q` of a finite value: truncation toward zero. -/
def truncQ (q : ℚ) : Int := Int.tdiv q.num (q.den : Int)

/-- The cast `(i32)v`: truncation toward zero, undefined on `inf` and `NaN`
and when the truncated value is outside the `i32` range. -/
def toI32 : f64 → Option Int
  | fin q => if -2 ^ 31 ≤ truncQ q ∧ truncQ q < 2 ^ 31 then some (truncQ q) else none
  | _ => none

end f64

/-! ## Rounding -/

/-- Rounding to the nearest integer, ties to even. -/
def rne (x : ℚ) : Int :=
  let f := ⌊x⌋
  if x - f < 1 / 2 then f
  else if 1 / 2 < x - f then f + 1
  else if f % 2 = 0 then f else f + 1

/-- The number of halvings that bring `n` below 2, with at most `fuel`
halvings. -/
def log2Fuel : Nat → Nat → Nat
  | 0, _ => 0
  | fuel + 1, n => if n < 2 then 0 else log2Fuel fuel (n / 2) + 1

/-- The binary logarithm of a natural number, rounded down (0 at 0). -/
def natLog2 (n : Nat) : Nat := log2Fuel n n

/-- The binary exponent of a nonzero rational: the integer `e` with
`2 ^ e ≤ |q| < 2 ^ (e + 1)`. -/
def ilog2 (q : ℚ) : Int :=
  let e0 : Int := (natLog2 q.num.natAbs : Int) - (natLog2 q.den : Int)
  if (2 : ℚ) ^ e0 ≤ |q| then e0 else e0 - 1

/-- Rounding to the nearest binary floating-point value with `p` significant
bits, ties to even; the exponent range is unbounded (no underflow, no
overflow). -/
def roundTo (p : Nat) (q : ℚ) : ℚ :=
  if q = 0 then 0
  else
    let u : ℚ := (2 : ℚ) ^ (ilog2 q - ((p : Int) - 1))
    (rne (q / u) : ℚ) * u

/-- The rounding of the result of an `f64` operation: 53 significant bits. -/
def f64.round (q : ℚ) : ℚ := roundTo 53 q

/-- The rounding of the result of an `f32` operation and of a store to an
`f32` object: 24 significant bits. -/
def f32.round (q : ℚ) : ℚ := roundTo 24 q

/-- The rounding of an `f64` result on the extended values: finite values are
rounded, the special values stay. -/
def f64.rnd : f64 → f64
  | .fin q => .fin (f64.round q)
  | v => v

/-! ## Grid map -/

/-- The reference grid: `static u8 map[8 * 8]`, row-major. -/
def map : List Nat :=
  [1, 1, 1, 1, 1, 1, 1, 1,
   1, 0, 0, 0, 0, 0, 0, 1,
   1, 0, 0, 0, 0, 0, 0, 1,
   1, 0, 0, 3, 3, 0, 0, 1,
   1, 0, 0, 3, 3, 0, 0, 1,
   1, 0, 0, 0, 0, 0, 0, 1,
   6, 0, 0, 0, 0, 0, 0, 1,
   1, 1, 2, 1, 1, 1, 1, 1]

/-- The array read `map[i]` for an index `0 <= i < 64`, the only indices at
which `checkCollision` and the DDA hit test read the array. -/
def mapAt (i : Int) : Nat := map.getD i.toNat 0

/-- The function `checkCollision` of `main.c`: is the cell open? -/
def checkCollision (x y : Int) : Bool :=
  if x < 0 || x ≥ 8 || y < 0 || y ≥ 8 then false
  else mapAt (x + y * 8) == 0 || mapAt (x + y * 8) == 6

/-! ## Camera -/

/-- The global `camera`: position in cell units, facing angle, field of view. -/
structure Camera where
  x : ℚ
  y : ℚ
  angle : ℚ
  fov : ℚ
deriving DecidableEq

/-- The body of the spawn scan `for (int i = 0; i < 8 * 8; i++)`: `n` indices are
left, `i` is the current one; the first cell holding 6 sets the position. -/
def initCameraLoop (cam : Camera) : Nat → Nat → Camera
  | 0, _ => cam
  | n + 1, i =>
    if mapAt i = 6 then
      { cam with x := (((i : Int) % 8 : Int) : ℚ) + 1 / 2, y := (((i : Int) / 8 : Int) : ℚ) + 1 / 2 }
    else initCameraLoop cam n (i + 1)

/-- The camera after the spawn scan, from the zero-initialised global. -/
def initCamera : Camera := initCameraLoop ⟨0, 0, 0, 0⟩ 64 0

/-! ## Ray setup and DDA -/

/-- The x-coordinate in camera space: `2 * x / (f64)WIDTH - 1`, an integer
product, an `f64` division and an `f64` subtraction. -/
def cameraX (x : Int) : ℚ := f64.round (f64.round (((2 * x : Int) : ℚ) / (WIDTH : ℚ)) - 1)

/-- The ray direction: `cosAngle + sinAngle * cameraX`. -/
def rayDirX (cosAngle sinAngle : ℚ) (x : Int) : ℚ :=
  f64.round (cosAngle + f64.round (sinAngle * cameraX x))

/-- The ray direction: `sinAngle - cosAngle * cameraX`. -/
def rayDirY (cosAngle sinAngle : ℚ) (x : Int) : ℚ :=
  f64.round (sinAngle - f64.round (cosAngle * cameraX x))

/-- The per-ray constants of one column. -/
structure Ray where
  rayDirX : ℚ
  rayDirY : ℚ
  deltaDistX : f64
  deltaDistY : f64
  stepX : Int
  stepY : Int

/-- The loop variables of the DDA. -/
structure Dda where
  mapX : Int
  mapY : Int
  sideDistX : f64
  sideDistY : f64
  side : Int
deriving DecidableEq

/-- The expression `sqrt(1 + (b * b) / (a * a))` of the two delta distances. -/
def deltaDist (sq : ℚ → ℚ) (a b : ℚ) : f64 :=
  f64.sqrt sq (f64.add (f64.fin 1) (f64.div (f64.fin (b * b)) (f64.fin (a * a))))

/-- The per-ray constants: delta distances and step signs. -/
def mkRay (sq : ℚ → ℚ) (dirX dirY : ℚ) : Ray :=
  { rayDirX := dirX
    rayDirY := dirY
    deltaDistX := deltaDist sq dirX dirY
    deltaDistY := deltaDist sq dirY dirX
    stepX := if dirX < 0 then -1 else 1
    stepY := if dirY < 0 then -1 else 1 }

/-- The loop variables before the first iteration: the camera cell and the
initial side distances.  `side` is not initialised in the source and is
assigned by every iteration; it starts at 0 here. -/
def ddaInit (cam : Camera) (r : Ray) : Dda :=
  let mapX := f64.truncQ cam.x
  let mapY := f64.truncQ cam.y
  { mapX := mapX
    mapY := mapY
    sideDistX :=
      if r.rayDirX < 0 then f64.mul (f64.fin (cam.x - mapX)) r.deltaDistX
      else f64.mul (f64.fin (mapX + 1 - cam.x)) r.deltaDistX
    sideDistY :=
      if r.rayDirY < 0 then f64.mul (f64.fin (cam.y - mapY)) r.deltaDistY
      else f64.mul (f64.fin (mapY + 1 - cam.y)) r.deltaDistY
    side := 0 }

/-- The first half of the loop body: jump to the next map square in x or in y. -/
def ddaStep (r : Ray) (s : Dda) : Dda :=
  if f64.lt s.sideDistX s.sideDistY then
    { s with sideDistX := f64.add s.sideDistX r.deltaDistX, mapX := s.mapX + r.stepX, side := 0 }
  else
    { s with sideDistY := f64.add s.sideDistY r.deltaDistY, mapY := s.mapY + r.stepY, side := 1 }

/-- The hit test of the loop body:
`mapX < 0 || mapX >= 8 || mapY < 0 || mapY >= 8 || map[..] > 0 && map[..] != 6`. -/
def hitTest (mapX mapY : Int) : Bool :=
  decide (mapX < 0) || decide (mapX ≥ 8) || decide (mapY < 0) || decide (mapY ≥ 8) ||
    (decide (mapAt (mapX + mapY * 8) > 0) && decide (mapAt (mapX + mapY * 8) ≠ 6))

/-- The loop `while (hit == 0)`: the loop variables after each iteration, in
order; the last entry is the state in which the hit was found.  `none` when
the fuel runs out first. -/
def ddaTrace (r : Ray) : Nat → Dda → Option (List Dda)
  | 0, _ => none
  | fuel + 1, s =>
    let s' := ddaStep r s
    if hitTest s'.mapX s'.mapY then some [s']
    else (ddaTrace r fuel s').map (fun tr => s' :: tr)

/-- The loop variables when the DDA loop exits. -/
def castRay (sq : ℚ → ℚ) (cam : Camera) (dirX dirY : ℚ) (fuel : Nat) : Option Dda :=
  (ddaTrace (mkRay sq dirX dirY) fuel (ddaInit cam (mkRay sq dirX dirY))).bind List.getLast?

/-! ## Projection and shading -/

/-- The distance projected on the camera direction:
`(mapX - camera.x + (1 - stepX) / 2) / rayDirX` on an x-side hit, the same
in y otherwise; `(1 - step) / 2` is an integer division.  `camera.x` is an
`f32`, so the subtraction and the addition are `f32` operations; the division
by the `f64` direction component is an `f64` operation. -/
def perpWallDist (cam : Camera) (r : Ray) (s : Dda) : f64 :=
  if s.side = 0 then
    f64.rnd (f64.div
      (f64.fin (f32.round (f32.round ((s.mapX : ℚ) - cam.x) + (Int.tdiv (1 - r.stepX) 2 : Int))))
      (f64.fin r.rayDirX))
  else
    f64.rnd (f64.div
      (f64.fin (f32.round (f32.round ((s.mapY : ℚ) - cam.y) + (Int.tdiv (1 - r.stepY) 2 : Int))))
      (f64.fin r.rayDirY))

/-- The stripe height `(i32)(HEIGHT / perpWallDist)`. -/
def lineHeight (perpWallDist : f64) : Option Int :=
  f64.toI32 (f64.rnd (f64.div (f64.fin (HEIGHT : ℚ)) perpWallDist))

/-- The shade factor: `1.0 - perpWallDist / 10.0`, raised to 0 when negative,
then halved on a y-side hit and multiplied by 0.75 on an x-side hit. -/
def shade (perpWallDist : f64) (side : Int) : f64 :=
  let shade := f64.sub (f64.fin 1) (f64.div perpWallDist (f64.fin 10))
  let shade := if f64.lt shade (f64.fin 0) then f64.fin 0 else shade
  if side = 1 then f64.mul shade (f64.fin (1 / 2))
  else if side = 0 then f64.mul shade (f64.fin (3 / 4))
  else shade

/-! ## Movement -/

/-- The key states read by the movement step. -/
structure Keys where
  w : Bool
  s : Bool
  a : Bool
  d : Bool
  lshift : Bool

/-- The elapsed seconds `(currentTime - prevTime) / 1000.0` of a tick that
took `elapsedMs` milliseconds. -/
def frameDeltaTime (elapsedMs : Nat) : ℚ := f64.round ((elapsedMs : ℚ) / 1000)

/-- The distance moved this tick: `MOVEMENT_SPEED * deltaTime`, times 1.2 with
shift held; `f64` products, 1.2 being the double nearest to 6/5. -/
def moveSpeed (deltaTime : ℚ) (lshift : Bool) : ℚ :=
  let moveSpeed := f64.round (MOVEMENT_SPEED * deltaTime)
  if lshift then f64.round (moveSpeed * f64.round (6 / 5)) else moveSpeed

/-- The candidate position of the W key: `camera.x + (cosAngle * moveSpeed)`
and `camera.y + (sinAngle * moveSpeed)`, `f64` operations. -/
def candW (cam : Camera) (cosAngle sinAngle moveSpeed : ℚ) : ℚ × ℚ :=
  (f64.round (cam.x + f64.round (cosAngle * moveSpeed)),
    f64.round (cam.y + f64.round (sinAngle * moveSpeed)))

/-- The candidate position of the S key. -/
def candS (cam : Camera) (cosAngle sinAngle moveSpeed : ℚ) : ℚ × ℚ :=
  (f64.round (cam.x - f64.round (cosAngle * moveSpeed)),
    f64.round (cam.y - f64.round (sinAngle * moveSpeed)))

/-- The candidate position of the A key. -/
def candA (cam : Camera) (cosAngle sinAngle moveSpeed : ℚ) : ℚ × ℚ :=
  (f64.round (cam.x - f64.round (sinAngle * moveSpeed)),
    f64.round (cam.y + f64.round (cosAngle * moveSpeed)))

/-- The candidate position of the D key. -/
def candD (cam : Camera) (cosAngle sinAngle moveSpeed : ℚ) : ℚ × ℚ :=
  (f64.round (cam.x + f64.round (sinAngle * moveSpeed)),
    f64.round (cam.y - f64.round (cosAngle * moveSpeed)))

/-- The guarded commit shared by the four key blocks:
`if (checkCollision((i32)newX, (i32)newY)) { camera.x = newX; camera.y = newY; }`;
the assignments narrow the `f64` candidate to the `f32` fields. -/
def commit (cam : Camera) (new : ℚ × ℚ) : Camera :=
  if checkCollision (f64.truncQ new.1) (f64.truncQ new.2) then
    { cam with x := f32.round new.1, y := f32.round new.2 }
  else cam

/-- The `SDL_SCANCODE_W` block. -/
def moveW (cam : Camera) (cosAngle sinAngle moveSpeed : ℚ) : Camera :=
  commit cam (candW cam cosAngle sinAngle moveSpeed)

/-- The `SDL_SCANCODE_S` block. -/
def moveS (cam : Camera) (cosAngle sinAngle moveSpeed : ℚ) : Camera :=
  commit cam (candS cam cosAngle sinAngle moveSpeed)

/-- The `SDL_SCANCODE_A` block. -/
def moveA (cam : Camera) (cosAngle sinAngle moveSpeed : ℚ) : Camera :=
  commit cam (candA cam cosAngle sinAngle moveSpeed)

/-- The `SDL_SCANCODE_D` block. -/
def moveD (cam : Camera) (cosAngle sinAngle moveSpeed : ℚ) : Camera :=
  commit cam (candD cam cosAngle sinAngle moveSpeed)

/-- The inputs of one tick that the movement step reads: key states, elapsed
seconds, and the cached cosine and sine of the facing angle. -/
structure TickInput where
  keys : Keys
  deltaTime : ℚ
  cosAngle : ℚ
  sinAngle : ℚ

/-- The movement step of one tick: the W, S, A and D blocks in source order. -/
def handleInput (cam : Camera) (inp : TickInput) : Camera :=
  let moveSpeed := moveSpeed inp.deltaTime inp.keys.lshift
  let cam := if inp.keys.w then moveW cam inp.cosAngle inp.sinAngle moveSpeed else cam
  let cam := if inp.keys.s then moveS cam inp.cosAngle inp.sinAngle moveSpeed else cam
  let cam := if inp.keys.a then moveA cam inp.cosAngle inp.sinAngle moveSpeed else cam
  if inp.keys.d then moveD cam inp.cosAngle inp.sinAngle moveSpeed else cam

/-- The camera after a sequence of ticks. -/
def runTicks (cam : Camera) (inps : List TickInput) : Camera :=
  inps.foldl handleInput cam

/-! ## Draw range, colour lookup, darkening and the stripe -/

/-- Mouse sensitivity: `#define ROTATION_SPEED 0.1`, the double nearest to 1/10. -/
def ROTATION_SPEED : ℚ := f64.round (1 / 10)

/-- The top row of the stripe: `-lineHeight / 2 + HEIGHT / 2`, raised to 0
when negative.  Both divisions are integer divisions. -/
def drawStart (lineHeight : Int) : Int :=
  let drawStart := Int.tdiv (-lineHeight) 2 + Int.tdiv HEIGHT 2
  if drawStart < 0 then 0 else drawStart

/-- The row after the stripe: `lineHeight / 2 + HEIGHT / 2`, lowered to
`HEIGHT - 1` when it reaches `HEIGHT`. -/
def drawEnd (lineHeight : Int) : Int :=
  let drawEnd := Int.tdiv lineHeight 2 + Int.tdiv HEIGHT 2
  if drawEnd ≥ HEIGHT then HEIGHT - 1 else drawEnd

/-- The lookup table `static u32 wallColors[7]`: five initialisers, the
remaining two entries are zero. -/
def wallColors : List Nat :=
  [0x000000FF, 0x0000FF00, 0x00FF0000, 0x00FFFFFF, 0x00FFFF00, 0, 0]

/-- The number of entries of `wallColors` that have an initialiser. -/
def wallColorsInitialised : Nat := 5

/-- The unguarded array read `map[i]`: defined for an index inside the
64-entry array only. -/
def mapRead (i : Int) : Option Nat :=
  if 0 ≤ i ∧ i < 64 then some (mapAt i) else none

/-- The base colour of a column: `wallColors[map[mapX + mapY * 8]]`, with no
bounds test on `mapX` and `mapY`; undefined when an index leaves its array. -/
def baseColor (mapX mapY : Int) : Option Nat :=
  (mapRead (mapX + mapY * 8)).bind (fun code => wallColors[code]?)

/-- The cast `(u32)v`: truncation toward zero, defined when the truncated
value fits in 32 bits. -/
def f64.toU32 : f64 → Option Nat
  | .fin q => if 0 ≤ f64.truncQ q ∧ f64.truncQ q < 2 ^ 32 then some (f64.truncQ q).toNat else none
  | _ => none

/-- The 8-bit channel of a packed colour at bit offset `k`: `(color >> k) & 0xFF`. -/
def channel (color k : Nat) : Nat := (color >>> k) &&& 0xFF

/-- One operand of the darkening expression:
`(u32)((f64)((color >> k) & 0xFF) * shade) << k`: an `f64` product, its cast,
and a shift of a `u32`. -/
def darkenChannel (color : Nat) (shade : f64) (k : Nat) : Option Nat :=
  (f64.toU32 (f64.rnd (f64.mul (f64.fin (channel color k)) shade))).map
    (fun v => (v <<< k) % 2 ^ 32)

/-- The darkening expression: the four operands at offsets 24, 16, 8 and 0
joined by bitwise or. -/
def darken (color : Nat) (shade : f64) : Option Nat :=
  (darkenChannel color shade 24).bind fun c24 =>
  (darkenChannel color shade 16).bind fun c16 =>
  (darkenChannel color shade 8).bind fun c8 =>
  (darkenChannel color shade 0).bind fun c0 =>
  some (c24 ||| c16 ||| c8 ||| c0)

/-- The frame buffer `pixels`, as a map from index to packed colour. -/
abbrev Buffer := Int → Nat

/-- The assignment `pixels[i] = color`: defined for an index inside the
`WIDTH * HEIGHT` array only. -/
def writePixel (pixels : Buffer) (i : Int) (color : Nat) : Option Buffer :=
  if 0 ≤ i ∧ i < WIDTH * HEIGHT then some (Function.update pixels i color) else none

/-- The stripe loop `for (int y = ..; y < drawEnd; y++) pixels[x + y * WIDTH] = color`
with `n` rows left, `y` the current row. -/
def stripeLoop (x : Int) (color : Nat) : Nat → Int → Buffer → Option Buffer
  | 0, _, pixels => some pixels
  | n + 1, y, pixels =>
    (writePixel pixels (x + y * WIDTH) color).bind (stripeLoop x color n (y + 1))

/-- The stripe loop from `drawStart` up to `drawEnd` (no row when
`drawEnd <= drawStart`). -/
def drawStripe (pixels : Buffer) (x : Int) (color : Nat) (drawStart drawEnd : Int) :
    Option Buffer :=
  stripeLoop x color (drawEnd - drawStart).toNat drawStart pixels

/-! ## Rotation and the cached cosine and sine -/

/-- The state carried from tick to tick: the camera and the cached
`cosAngle` and `sinAngle`. -/
structure GameState where
  camera : Camera
  cosAngle : ℚ
  sinAngle : ℚ

/-- The inputs of one tick: key states, elapsed seconds and the relative
mouse motion `mouseX`. -/
structure Input where
  keys : Keys
  deltaTime : ℚ
  mouseX : Int

/-- The state before the first frame: the camera after the spawn scan and
`cosAngle = cos(camera.angle)`, `sinAngle = sin(camera.angle)`; `cosF` and
`sinF` are the libm calls `cos` and `sin`. -/
def initState (cosF sinF : ℚ → ℚ) : GameState :=
  { camera := initCamera
    cosAngle := cosF initCamera.angle
    sinAngle := sinF initCamera.angle }

/-- The ray direction of column `x` in the frame drawn from a state: the
renderer reads the cached `cosAngle` and `sinAngle`. -/
def columnRay (st : GameState) (x : Int) : ℚ × ℚ :=
  (rayDirX st.cosAngle st.sinAngle x, rayDirY st.cosAngle st.sinAngle x)

/-- The state update of one tick: the movement step with the cached values,
then `camera.angle += mouseX * rotationSpeed` (an `f64` sum narrowed to the
`f32` field), `cosAngle = cos(camera.angle)` and
`sinAngle = -sin(camera.angle)`. -/
def tick (cosF sinF : ℚ → ℚ) (st : GameState) (inp : Input) : GameState :=
  let cam := handleInput st.camera ⟨inp.keys, inp.deltaTime, st.cosAngle, st.sinAngle⟩
  let rotationSpeed := f64.round (ROTATION_SPEED * inp.deltaTime)
  let cam := { cam with
    angle := f32.round (f64.round (cam.angle + f64.round ((inp.mouseX : ℚ) * rotationSpeed))) }
  { camera := cam
    cosAngle := cosF cam.angle
    sinAngle := -sinF cam.angle }

/-! ## Specification-side definitions -/

/-- The number of steps the DDA can still take inside the grid: the
cells left before the border along each axis, in the direction of the step. -/
def stepsLeft (r : Ray) (s : Dda) : Nat :=
  ((if r.stepX = 1 then 7 - s.mapX else s.mapX) +
    (if r.stepY = 1 then 7 - s.mapY else s.mapY)).toNat

/-- The four axis directions. -/
inductive Axis where
  | posX
  | negX
  | posY
  | negY
deriving DecidableEq

/-- The unit vector of an axis direction. -/
def Axis.dir : Axis → ℚ × ℚ
  | .posX => (1, 0)
  | .negX => (-1, 0)
  | .posY => (0, 1)
  | .negY => (0, -1)

/-- The hit side of a ray along an axis direction: 0 (X side) or 1 (Y side). -/
def Axis.side : Axis → Int
  | .posX => 0
  | .negX => 0
  | .posY => 1
  | .negY => 1

/-- The cell `j` cells ahead of the camera cell in an axis direction. -/
def cellAhead (cam : Camera) (a : Axis) (j : Nat) : Int × Int :=
  match a with
  | .posX => (⌊cam.x⌋ + j, ⌊cam.y⌋)
  | .negX => (⌊cam.x⌋ - j, ⌊cam.y⌋)
  | .posY => (⌊cam.x⌋, ⌊cam.y⌋ + j)
  | .negY => (⌊cam.x⌋, ⌊cam.y⌋ - j)

/-- The distance from the camera to the nearest face of the cell `k` cells
ahead in an axis direction. -/
def faceDist (cam : Camera) (a : Axis) (k : Nat) : ℚ :=
  match a with
  | .posX => ((⌊cam.x⌋ + k : Int) : ℚ) - cam.x
  | .negX => cam.x - ((⌊cam.x⌋ - k + 1 : Int) : ℚ)
  | .posY => ((⌊cam.y⌋ + k : Int) : ℚ) - cam.y
  | .negY => cam.y - ((⌊cam.y⌋ - k + 1 : Int) : ℚ)

/-! ## Rounding lemmas -/

theorem rne_cases (x : ℚ) :
    (rne x = ⌊x⌋ ∧ x - ⌊x⌋ ≤ 1 / 2) ∨ (rne x = ⌊x⌋ + 1 ∧ 1 / 2 ≤ x - ⌊x⌋) := by
  unfold rne
  simp only
  split_ifs with h1 h2 h3
  · exact Or.inl ⟨rfl, h1.le⟩
  · exact Or.inr ⟨rfl, h2.le⟩
  · exact Or.inl ⟨rfl, not_lt.mp h2⟩
  · exact Or.inr ⟨rfl, not_lt.mp h1⟩

theorem rne_le (x : ℚ) (N : Int) (h : x ≤ N) : rne x ≤ N := by
  have hf : ⌊x⌋ ≤ N := by
    have := Int.floor_mono h
    simpa using this
  rcases rne_cases x with ⟨e, -⟩ | ⟨e, hhalf⟩
  · rw [e]; exact hf
  · rw [e]
    rcases lt_or_eq_of_le hf with hlt | heq
    · omega
    · exfalso
      rw [heq] at hhalf
      linarith

theorem rne_ge (x : ℚ) (N : Int) (h : (N : ℚ) ≤ x) : N ≤ rne x := by
  have hf : N ≤ ⌊x⌋ := Int.le_floor.mpr h
  rcases rne_cases x with ⟨e, -⟩ | ⟨e, -⟩ <;> rw [e] <;> omega

theorem rne_err (x : ℚ) : |(rne x : ℚ) - x| ≤ 1 / 2 := by
  have h1 := Int.floor_le x
  have h2 := Int.lt_floor_add_one x
  rw [abs_le]
  rcases rne_cases x with ⟨e, hh⟩ | ⟨e, hh⟩ <;> rw [e] <;> push_cast <;> constructor <;> linarith

theorem roundTo_eq (p : Nat) (q : ℚ) (hq : q ≠ 0) :
    roundTo p q = (rne (q / (2 : ℚ) ^ (ilog2 q - ((p : Int) - 1))) : ℚ) *
      (2 : ℚ) ^ (ilog2 q - ((p : Int) - 1)) := by
  unfold roundTo
  rw [if_neg hq]

theorem two_zpow_pos (z : Int) : (0 : ℚ) < (2 : ℚ) ^ z := zpow_pos (by norm_num) z

theorem log2Fuel_le : ∀ (fuel n : Nat), 1 ≤ n → 2 ^ log2Fuel fuel n ≤ n := by
  intro fuel
  induction fuel with
  | zero => intro n h; simpa [log2Fuel] using h
  | succ f ih =>
    intro n h
    unfold log2Fuel
    split_ifs with h2
    · simpa using h
    · have := ih (n / 2) (by omega)
      rw [pow_succ]
      omega

theorem log2Fuel_lt : ∀ (fuel n : Nat), n ≤ fuel → n < 2 ^ (log2Fuel fuel n + 1) := by
  intro fuel
  induction fuel with
  | zero => intro n h; simp [log2Fuel]; omega
  | succ f ih =>
    intro n h
    unfold log2Fuel
    split_ifs with h2
    · simpa using h2
    · have := ih (n / 2) (by omega)
      rw [pow_succ]
      omega

theorem natLog2_le (n : Nat) (h : 1 ≤ n) : 2 ^ natLog2 n ≤ n := log2Fuel_le n n h

theorem natLog2_lt (n : Nat) : n < 2 ^ (natLog2 n + 1) := log2Fuel_lt n n le_rfl

theorem abs_eq_natAbs_div_den (q : ℚ) : |q| = (q.num.natAbs : ℚ) / (q.den : ℚ) := by
  conv_lhs => rw [← Rat.num_div_den q]
  rw [abs_div, Nat.abs_cast, Nat.cast_natAbs, Int.cast_abs]

theorem ilog2_bounds (q : ℚ) (hq : q ≠ 0) :
    (2 : ℚ) ^ ilog2 q ≤ |q| ∧ |q| < (2 : ℚ) ^ (ilog2 q + 1) := by
  have hnum : 1 ≤ q.num.natAbs := by
    have : q.num ≠ 0 := Rat.num_ne_zero.mpr hq
    omega
  have hden : 1 ≤ q.den := q.den_pos
  have ha1 : ((2 : ℚ) ^ natLog2 q.num.natAbs) ≤ (q.num.natAbs : ℚ) := by
    exact_mod_cast natLog2_le _ hnum
  have ha2 : (q.num.natAbs : ℚ) < (2 : ℚ) ^ (natLog2 q.num.natAbs + 1) := by
    exact_mod_cast natLog2_lt q.num.natAbs
  have hb1 : ((2 : ℚ) ^ natLog2 q.den) ≤ (q.den : ℚ) := by
    exact_mod_cast natLog2_le _ hden
  have hb2 : (q.den : ℚ) < (2 : ℚ) ^ (natLog2 q.den + 1) := by
    exact_mod_cast natLog2_lt q.den
  have hbpos : (0 : ℚ) < (q.den : ℚ) := by exact_mod_cast hden
  have h2 : (2 : ℚ) ≠ 0 := by norm_num
  have hpa : (0 : ℚ) < (2 : ℚ) ^ natLog2 q.num.natAbs := pow_pos (by norm_num) _
  have hpb : (0 : ℚ) < (2 : ℚ) ^ natLog2 q.den := pow_pos (by norm_num) _
  have hpb1 : (0 : ℚ) < (2 : ℚ) ^ (natLog2 q.den + 1) := pow_pos (by norm_num) _
  have habs := abs_eq_natAbs_div_den q
  unfold ilog2
  simp only
  split_ifs with h
  · refine ⟨h, ?_⟩
    rw [habs, zpow_add₀ h2, zpow_sub₀ h2, zpow_natCast, zpow_natCast, zpow_one,
      div_lt_iff₀ hbpos]
    have e : (2 : ℚ) ^ natLog2 q.num.natAbs / (2 : ℚ) ^ natLog2 q.den * 2 * (q.den : ℚ)
        = ((2 : ℚ) ^ (natLog2 q.num.natAbs + 1)) * ((q.den : ℚ) / (2 : ℚ) ^ natLog2 q.den) := by
      rw [pow_succ]
      field_simp
    rw [e]
    have hge1 : 1 ≤ (q.den : ℚ) / (2 : ℚ) ^ natLog2 q.den := by
      rw [le_div_iff₀ hpb]
      linarith
    calc (q.num.natAbs : ℚ) < (2 : ℚ) ^ (natLog2 q.num.natAbs + 1) := ha2
      _ = (2 : ℚ) ^ (natLog2 q.num.natAbs + 1) * 1 := (mul_one _).symm
      _ ≤ _ := mul_le_mul_of_nonneg_left hge1 (pow_pos (by norm_num) _).le
  · refine ⟨?_, ?_⟩
    · rw [habs, zpow_sub₀ h2, zpow_sub₀ h2, zpow_natCast, zpow_natCast, zpow_one,
        le_div_iff₀ hbpos]
      have e : (2 : ℚ) ^ natLog2 q.num.natAbs / (2 : ℚ) ^ natLog2 q.den / 2 * (q.den : ℚ)
          = ((2 : ℚ) ^ natLog2 q.num.natAbs) * ((q.den : ℚ) / (2 : ℚ) ^ (natLog2 q.den + 1)) := by
        rw [pow_succ]
        field_simp
      rw [e]
      have hle1 : (q.den : ℚ) / (2 : ℚ) ^ (natLog2 q.den + 1) ≤ 1 := by
        rw [div_le_iff₀ hpb1]
        linarith
      calc _ ≤ (2 : ℚ) ^ natLog2 q.num.natAbs * 1 :=
            mul_le_mul_of_nonneg_left hle1 hpa.le
        _ = (2 : ℚ) ^ natLog2 q.num.natAbs := mul_one _
        _ ≤ _ := ha1
    · have : (natLog2 q.num.natAbs : Int) - (natLog2 q.den : Int) - 1 + 1 =
          (natLog2 q.num.natAbs : Int) - (natLog2 q.den : Int) := by ring
      rw [this]
      exact not_le.mp h

theorem log_le_abs (q : ℚ) (hq : q ≠ 0) : (2 : ℚ) ^ (ilog2 q) ≤ |q| :=
  (ilog2_bounds q hq).1

theorem abs_lt_log_succ (q : ℚ) (hq : q ≠ 0) : |q| < (2 : ℚ) ^ (ilog2 q + 1) :=
  (ilog2_bounds q hq).2

/-- The exponent `ilog2` is the integer binary logarithm of `|q|`. -/
theorem ilog2_eq_log (q : ℚ) (hq : q ≠ 0) : ilog2 q = Int.log 2 |q| := by
  have hpos : 0 < |q| := abs_pos.mpr hq
  have h1 : ilog2 q ≤ Int.log 2 |q| := by
    apply (Int.zpow_le_iff_le_log (by norm_num) hpos).mp
    simpa using log_le_abs q hq
  have h2 : Int.log 2 |q| < ilog2 q + 1 := by
    apply (Int.lt_zpow_iff_log_lt (by norm_num) hpos).mp
    simpa using abs_lt_log_succ q hq
  omega

theorem roundTo_nonneg (p : Nat) (q : ℚ) (h : 0 ≤ q) : 0 ≤ roundTo p q := by
  by_cases hq : q = 0
  · simp [roundTo, hq]
  · rw [roundTo_eq p q hq]
    have hu := two_zpow_pos (ilog2 q - ((p : Int) - 1))
    apply mul_nonneg _ hu.le
    have : (0 : Int) ≤ rne (q / (2 : ℚ) ^ (ilog2 q - ((p : Int) - 1))) :=
      rne_ge _ 0 (by simpa using div_nonneg h hu.le)
    exact_mod_cast this

theorem ulp_inv_nat (p : Nat) (q : ℚ) (hq : q ≠ 0) (hlt : |q| < (2 : ℚ) ^ p) :
    ∃ K : Nat, (2 : ℚ) ^ (ilog2 q - ((p : Int) - 1)) = ((2 : ℚ) ^ K)⁻¹ := by
  have h1 := log_le_abs q hq
  have h2 : (2 : ℚ) ^ (ilog2 q) < (2 : ℚ) ^ (p : Int) := by
    rw [zpow_natCast]
    exact lt_of_le_of_lt h1 hlt
  have h3 : ilog2 q < (p : Int) := (zpow_lt_zpow_iff_right₀ (by norm_num)).mp h2
  refine ⟨((p : Int) - 1 - ilog2 q).toNat, ?_⟩
  rw [← zpow_natCast, ← zpow_neg]
  congr 1
  omega

theorem roundTo_le_int (p : Nat) (q : ℚ) (n : Int) (hlt : |q| < (2 : ℚ) ^ p) (h : q ≤ n) :
    roundTo p q ≤ n := by
  by_cases hq : q = 0
  · subst hq
    simpa [roundTo] using h
  · obtain ⟨K, hK⟩ := ulp_inv_nat p q hq hlt
    rw [roundTo_eq p q hq, hK]
    have hpos : (0 : ℚ) < (2 : ℚ) ^ K := pow_pos (by norm_num) K
    have hx : q / ((2 : ℚ) ^ K)⁻¹ ≤ ((n * 2 ^ K : Int) : ℚ) := by
      rw [div_inv_eq_mul]
      push_cast
      exact mul_le_mul_of_nonneg_right h hpos.le
    have hr := rne_le _ _ hx
    have hr2 : (rne (q / ((2 : ℚ) ^ K)⁻¹) : ℚ) ≤ ((n * 2 ^ K : Int) : ℚ) := by exact_mod_cast hr
    calc (rne (q / ((2 : ℚ) ^ K)⁻¹) : ℚ) * ((2 : ℚ) ^ K)⁻¹
        ≤ ((n * 2 ^ K : Int) : ℚ) * ((2 : ℚ) ^ K)⁻¹ :=
          mul_le_mul_of_nonneg_right hr2 (inv_nonneg.mpr hpos.le)
      _ = n := by
          push_cast
          field_simp

theorem roundTo_ge_int (p : Nat) (q : ℚ) (n : Int) (hlt : |q| < (2 : ℚ) ^ p) (h : (n : ℚ) ≤ q) :
    (n : ℚ) ≤ roundTo p q := by
  by_cases hq : q = 0
  · subst hq
    simpa [roundTo] using h
  · obtain ⟨K, hK⟩ := ulp_inv_nat p q hq hlt
    rw [roundTo_eq p q hq, hK]
    have hpos : (0 : ℚ) < (2 : ℚ) ^ K := pow_pos (by norm_num) K
    have hx : ((n * 2 ^ K : Int) : ℚ) ≤ q / ((2 : ℚ) ^ K)⁻¹ := by
      rw [div_inv_eq_mul]
      push_cast
      exact mul_le_mul_of_nonneg_right h hpos.le
    have hr := rne_ge _ _ hx
    have hr2 : ((n * 2 ^ K : Int) : ℚ) ≤ (rne (q / ((2 : ℚ) ^ K)⁻¹) : ℚ) := by exact_mod_cast hr
    calc (n : ℚ) = ((n * 2 ^ K : Int) : ℚ) * ((2 : ℚ) ^ K)⁻¹ := by
          push_cast
          field_simp
      _ ≤ (rne (q / ((2 : ℚ) ^ K)⁻¹) : ℚ) * ((2 : ℚ) ^ K)⁻¹ :=
          mul_le_mul_of_nonneg_right hr2 (inv_nonneg.mpr hpos.le)

theorem roundTo_err (p : Nat) (q : ℚ) (m : Int) (hlt : |q| < (2 : ℚ) ^ m) :
    |roundTo p q - q| ≤ (2 : ℚ) ^ (m - (p : Int)) / 2 := by
  by_cases hq : q = 0
  · subst hq
    simp only [roundTo, if_true, sub_zero, abs_zero]
    exact div_nonneg (two_zpow_pos _).le (by norm_num)
  · rw [roundTo_eq p q hq]
    set u : ℚ := (2 : ℚ) ^ (ilog2 q - ((p : Int) - 1)) with hu_def
    have hu : 0 < u := two_zpow_pos _
    have h1 := log_le_abs q hq
    have h2 : (2 : ℚ) ^ (ilog2 q) < (2 : ℚ) ^ m := lt_of_le_of_lt h1 hlt
    have h3 : ilog2 q < m := (zpow_lt_zpow_iff_right₀ (by norm_num)).mp h2
    have hule : u ≤ (2 : ℚ) ^ (m - (p : Int)) :=
      zpow_le_zpow_right₀ (by norm_num) (by omega)
    have herr := rne_err (q / u)
    have : (rne (q / u) : ℚ) * u - q = ((rne (q / u) : ℚ) - q / u) * u := by
      field_simp
    rw [this, abs_mul, abs_of_pos hu]
    calc |(rne (q / u) : ℚ) - q / u| * u ≤ 1 / 2 * u :=
          mul_le_mul_of_nonneg_right herr hu.le
      _ ≤ (2 : ℚ) ^ (m - (p : Int)) / 2 := by linarith

/-! ## Truncation and floor -/

theorem truncQ_of_nonneg {q : ℚ} (h : 0 ≤ q) : f64.truncQ q = ⌊q⌋ := by
  unfold f64.truncQ
  rw [Rat.floor_def, Int.tdiv_eq_ediv (Rat.num_nonneg.mpr h) (Int.ofNat_nonneg _)]

theorem truncQ_neg (q : ℚ) : f64.truncQ (-q) = -f64.truncQ q := by
  simp [f64.truncQ, Int.neg_tdiv]

theorem lt_truncQ_add_one (q : ℚ) : q < (f64.truncQ q : ℚ) + 1 := by
  rcases le_or_lt 0 q with h | h
  · rw [truncQ_of_nonneg h]
    exact Int.lt_floor_add_one q
  · have h1 : f64.truncQ q = -⌊-q⌋ := by
      have := truncQ_neg (-q)
      rw [neg_neg] at this
      rw [this, truncQ_of_nonneg (by linarith)]
    have h2 : ((⌊-q⌋ : Int) : ℚ) ≤ -q := Int.floor_le (-q)
    rw [h1]
    push_cast
    linarith

theorem truncQ_bounds {q : ℚ} (h0 : 0 ≤ q) (h8 : q < 8) :
    0 ≤ f64.truncQ q ∧ f64.truncQ q < 8 := by
  rw [truncQ_of_nonneg h0]
  refine ⟨Int.floor_nonneg.mpr h0, ?_⟩
  have : ⌊q⌋ < (8 : Int) := Int.floor_lt.mpr (by exact_mod_cast h8)
  exact this

theorem checkCollision_inBounds {x y : Int} (h : checkCollision x y = true) :
    0 ≤ x ∧ x < 8 ∧ 0 ≤ y ∧ y < 8 := by
  unfold checkCollision at h
  by_contra hc
  have : (decide (x < 0) || decide (x ≥ 8) || decide (y < 0) || decide (y ≥ 8)) = true := by
    simp only [Bool.or_eq_true, decide_eq_true_eq]
    omega
  simp [this] at h

theorem checkCollision_floor_trunc {a b : ℚ} (h : checkCollision ⌊a⌋ ⌊b⌋ = true) :
    f64.truncQ a = ⌊a⌋ ∧ f64.truncQ b = ⌊b⌋ := by
  obtain ⟨hx, -, hy, -⟩ := checkCollision_inBounds h
  exact ⟨truncQ_of_nonneg (Int.floor_nonneg.mp hx), truncQ_of_nonneg (Int.floor_nonneg.mp hy)⟩

theorem commit_of_floor_open (cam : Camera) (new : ℚ × ℚ)
    (h : checkCollision ⌊new.1⌋ ⌊new.2⌋ = true) :
    commit cam new = { cam with x := f32.round new.1, y := f32.round new.2 } := by
  obtain ⟨h1, h2⟩ := checkCollision_floor_trunc h
  simp [commit, h1, h2, h]

/-! ## Grid map contract -/

/-- C7: every cell outside the 8x8 grid is closed; in particular the cells
(-1, 3) and (8, 3) are closed. -/
theorem checkCollision_out_of_bounds (x y : Int) (h : x < 0 ∨ x ≥ 8 ∨ y < 0 ∨ y ≥ 8) :
    checkCollision x y = false ∧ checkCollision (-1) 3 = false ∧ checkCollision 8 3 = false := by
  refine ⟨?_, by decide, by decide⟩
  cases hc : checkCollision x y
  · rfl
  · have := checkCollision_inBounds hc
    omega

theorem checkCollision_out_of_bounds_witness :
    ((-1 : Int) < 0 ∨ (-1 : Int) ≥ 8 ∨ (3 : Int) < 0 ∨ (3 : Int) ≥ 8) ∧
      checkCollision (-1) 3 = false :=
  ⟨by decide, (checkCollision_out_of_bounds (-1) 3 (by decide)).1⟩

/-- C8: inside the grid a cell is open exactly when its code `map[x + 8 * y]`
is 0 (open) or 6 (spawn). -/
theorem checkCollision_in_bounds_iff (x y : Int) (hx0 : 0 ≤ x) (hx8 : x < 8)
    (hy0 : 0 ≤ y) (hy8 : y < 8) :
    checkCollision x y = true ↔ (mapAt (x + 8 * y) = 0 ∨ mapAt (x + 8 * y) = 6) := by
  have hb : (decide (x < 0) || decide (x ≥ 8) || decide (y < 0) || decide (y ≥ 8)) = false := by
    simp only [Bool.or_eq_false_iff, decide_eq_false_iff_not]
    omega
  have hi : x + y * 8 = x + 8 * y := by ring
  unfold checkCollision
  simp [hb, hi]

theorem checkCollision_in_bounds_iff_witness :
    checkCollision 0 6 = true ↔ (mapAt (0 + 8 * 6) = 0 ∨ mapAt (0 + 8 * 6) = 6) :=
  checkCollision_in_bounds_iff 0 6 (by decide) (by decide) (by decide) (by decide)

/-! ## Shading -/

theorem shade_fin (d : ℚ) (side : Int) :
    shade (f64.fin d) side =
      f64.fin ((if 1 - d / 10 < 0 then 0 else 1 - d / 10) *
        (if side = 1 then 1 / 2 else if side = 0 then 3 / 4 else 1)) := by
  have h10 : (10 : ℚ) ≠ 0 := by norm_num
  have hs : f64.sub (f64.fin 1) (f64.div (f64.fin d) (f64.fin 10)) = f64.fin (1 - d / 10) := by
    simp [f64.sub, f64.div, f64.add, f64.neg, h10, sub_eq_add_neg]
  unfold shade
  simp only [hs, f64.lt]
  by_cases hneg : 1 - d / 10 < 0 <;> by_cases h1 : side = 1 <;> by_cases h0 : side = 0 <;>
    simp [hneg, h1, h0, f64.mul]

theorem shade_fin_nonneg (d : ℚ) (side : Int) :
    ∃ v : ℚ, shade (f64.fin d) side = f64.fin v ∧ 0 ≤ v := by
  refine ⟨_, shade_fin d side, ?_⟩
  apply mul_nonneg
  · split_ifs with h
    · exact le_rfl
    · exact not_lt.mp h
  · split_ifs <;> norm_num

theorem shade_pinf (side : Int) : shade f64.pinf side = f64.fin 0 := by
  unfold shade
  by_cases h1 : side = 1 <;> by_cases h0 : side = 0 <;>
    simp [f64.sub, f64.div, f64.add, f64.neg, f64.lt, f64.mul, h1, h0]

theorem shade_ninf (side : Int) : shade f64.ninf side = f64.pinf := by
  unfold shade
  by_cases h1 : side = 1 <;> by_cases h0 : side = 0 <;>
    simp [f64.sub, f64.div, f64.add, f64.neg, f64.lt, f64.mul, f64.signedInf, h1, h0]

/-- C10: for each fixed hit side the shade factor is non-increasing in the
perpendicular distance: `d1 <= d2` gives `shade d2 <= shade d1` (the C
comparison, so also for infinite distances). -/
theorem shade_monotone (d1 d2 : f64) (side : Int) (h : f64.le d1 d2 = true) :
    f64.le (shade d2 side) (shade d1 side) = true := by
  cases d1 with
  | nan => simp [f64.le] at h
  | pinf =>
    cases d2 with
    | pinf => simp [shade_pinf, f64.le]
    | _ => simp [f64.le] at h
  | ninf =>
    cases d2 with
    | nan => simp [f64.le] at h
    | pinf => simp [shade_pinf, shade_ninf, f64.le]
    | ninf => simp [shade_ninf, f64.le]
    | fin b => simp [shade_fin, shade_ninf, f64.le]
  | fin a =>
    cases d2 with
    | nan => simp [f64.le] at h
    | ninf => simp [f64.le] at h
    | pinf =>
      obtain ⟨v, hv, hv0⟩ := shade_fin_nonneg a side
      simp [shade_pinf, hv, f64.le, hv0]
    | fin b =>
      have hab : a ≤ b := by simpa [f64.le] using h
      rw [shade_fin, shade_fin]
      simp only [f64.le, decide_eq_true_eq]
      apply mul_le_mul_of_nonneg_right
      · by_cases hb : 1 - b / 10 < 0 <;> by_cases ha : 1 - a / 10 < 0 <;>
          simp only [hb, ha, if_true, if_false] <;> linarith
      · split_ifs <;> norm_num

theorem shade_monotone_witness :
    f64.le (f64.fin 1) (f64.fin 2) = true ∧
      f64.le (shade (f64.fin 2) 0) (shade (f64.fin 1) 0) = true :=
  ⟨by decide!, shade_monotone (f64.fin 1) (f64.fin 2) 0 (by decide!)⟩

/-! ## Movement -/

theorem moveSpeed_eq (deltaTime : ℚ) (lshift : Bool) :
    moveSpeed deltaTime lshift =
      if lshift then f64.round (f64.round (3 / 2 * deltaTime) * f64.round (6 / 5))
      else f64.round (3 / 2 * deltaTime) := by
  cases lshift <;> simp [moveSpeed, MOVEMENT_SPEED]

/-- C4, evaluated at a failing input: camera (0.5, 6.5), cosAngle = 1,
sinAngle = 0, a tick of 400 ms, S pressed.  The candidate is
(-0.10000000000000009, 6.5), whose cell (floor) is (-1, 6), reported closed;
the casts `(i32)` truncate to (0, 6), the open spawn cell, and the position
changes to the candidate (narrowed to `f32`). -/
theorem moveS_accepts_closed_floor_cell :
    moveSpeed (frameDeltaTime 400) false = 1351079888211149 / 2251799813685248 ∧
      candS ⟨1 / 2, 13 / 2, 0, 0⟩ 1 0 (moveSpeed (frameDeltaTime 400) false) =
        (-225179981368525 / 2251799813685248, 13 / 2) ∧
      checkCollision ⌊(-225179981368525 / 2251799813685248 : ℚ)⌋ ⌊(13 / 2 : ℚ)⌋ = false ∧
      checkCollision (f64.truncQ (-225179981368525 / 2251799813685248))
        (f64.truncQ (13 / 2)) = true ∧
      moveS ⟨1 / 2, 13 / 2, 0, 0⟩ 1 0 (moveSpeed (frameDeltaTime 400) false) =
        ⟨-13421773 / 134217728, 13 / 2, 0, 0⟩ ∧
      handleInput ⟨1 / 2, 13 / 2, 0, 0⟩
          ⟨⟨false, true, false, false, false⟩, frameDeltaTime 400, 1, 0⟩ ≠
        ⟨1 / 2, 13 / 2, 0, 0⟩ := by
  decide!

/-- C5 fails as stated: camera (0.5, 6.5), cosAngle = 1, sinAngle = 0, a tick
of 400 ms, W pressed.  The candidate is the double 1.1 in the open cell
(1, 6); the assignment to the `f32` field stores 9227469/8388608
(1.10000002384185791015625), not the candidate. -/
theorem move_stores_narrowed_candidate :
    candW ⟨1 / 2, 13 / 2, 0, 0⟩ 1 0 (moveSpeed (frameDeltaTime 400) false) =
        (2476979795053773 / 2251799813685248, 13 / 2) ∧
      checkCollision ⌊(2476979795053773 / 2251799813685248 : ℚ)⌋ ⌊(13 / 2 : ℚ)⌋ = true ∧
      handleInput ⟨1 / 2, 13 / 2, 0, 0⟩
          ⟨⟨true, false, false, false, false⟩, frameDeltaTime 400, 1, 0⟩ =
        ⟨9227469 / 8388608, 13 / 2, 0, 0⟩ ∧
      (9227469 / 8388608 : ℚ) ≠ 2476979795053773 / 2251799813685248 := by
  decide!

/-- C5 (amended): for every camera position, cached cosine and sine, elapsed
time and shift state, and each single key W, S, A, D: with
`ms = MOVEMENT_SPEED * deltaTime` (times 1.2 with shift) and the candidate
`position + or - ms * (forward or right vector)` computed in `f64`, when the
cell of the candidate is open the position after the movement step is the
candidate narrowed to `f32`, in both coordinates, and nothing else changes. -/
theorem move_commits_open_candidate (cam : Camera) (cosAngle sinAngle deltaTime : ℚ)
    (lshift : Bool) (ms : ℚ)
    (hms : ms = if lshift then f64.round (f64.round (3 / 2 * deltaTime) * f64.round (6 / 5))
      else f64.round (3 / 2 * deltaTime)) :
    (checkCollision ⌊f64.round (cam.x + f64.round (cosAngle * ms))⌋
        ⌊f64.round (cam.y + f64.round (sinAngle * ms))⌋ = true →
      handleInput cam ⟨⟨true, false, false, false, lshift⟩, deltaTime, cosAngle, sinAngle⟩ =
        { cam with x := f32.round (f64.round (cam.x + f64.round (cosAngle * ms))),
                   y := f32.round (f64.round (cam.y + f64.round (sinAngle * ms))) }) ∧
    (checkCollision ⌊f64.round (cam.x - f64.round (cosAngle * ms))⌋
        ⌊f64.round (cam.y - f64.round (sinAngle * ms))⌋ = true →
      handleInput cam ⟨⟨false, true, false, false, lshift⟩, deltaTime, cosAngle, sinAngle⟩ =
        { cam with x := f32.round (f64.round (cam.x - f64.round (cosAngle * ms))),
                   y := f32.round (f64.round (cam.y - f64.round (sinAngle * ms))) }) ∧
    (checkCollision ⌊f64.round (cam.x - f64.round (sinAngle * ms))⌋
        ⌊f64.round (cam.y + f64.round (cosAngle * ms))⌋ = true →
      handleInput cam ⟨⟨false, false, true, false, lshift⟩, deltaTime, cosAngle, sinAngle⟩ =
        { cam with x := f32.round (f64.round (cam.x - f64.round (sinAngle * ms))),
                   y := f32.round (f64.round (cam.y + f64.round (cosAngle * ms))) }) ∧
    (checkCollision ⌊f64.round (cam.x + f64.round (sinAngle * ms))⌋
        ⌊f64.round (cam.y - f64.round (cosAngle * ms))⌋ = true →
      handleInput cam ⟨⟨false, false, false, true, lshift⟩, deltaTime, cosAngle, sinAngle⟩ =
        { cam with x := f32.round (f64.round (cam.x + f64.round (sinAngle * ms))),
                   y := f32.round (f64.round (cam.y - f64.round (cosAngle * ms))) }) := by
  have hm : moveSpeed deltaTime lshift = ms := by rw [hms, moveSpeed_eq]
  refine ⟨fun h => ?_, fun h => ?_, fun h => ?_, fun h => ?_⟩
  · simpa [handleInput, moveW, candW, hm] using commit_of_floor_open cam
      (candW cam cosAngle sinAngle ms) h
  · simpa [handleInput, moveS, candS, hm] using commit_of_floor_open cam
      (candS cam cosAngle sinAngle ms) h
  · simpa [handleInput, moveA, candA, hm] using commit_of_floor_open cam
      (candA cam cosAngle sinAngle ms) h
  · simpa [handleInput, moveD, candD, hm] using commit_of_floor_open cam
      (candD cam cosAngle sinAngle ms) h

theorem move_commits_open_candidate_witness :
    (1351079888211149 / 2251799813685248 : ℚ) =
        (if false = true then
          f64.round (f64.round (3 / 2 * frameDeltaTime 400) * f64.round (6 / 5))
        else f64.round (3 / 2 * frameDeltaTime 400)) ∧
      checkCollision
        ⌊f64.round ((1 / 2 : ℚ) + f64.round (1 * (1351079888211149 / 2251799813685248)))⌋
        ⌊f64.round ((13 / 2 : ℚ) + f64.round (0 * (1351079888211149 / 2251799813685248)))⌋ =
        true ∧
      handleInput ⟨1 / 2, 13 / 2, 0, 0⟩
          ⟨⟨true, false, false, false, false⟩, frameDeltaTime 400, 1, 0⟩ =
        { (⟨1 / 2, 13 / 2, 0, 0⟩ : Camera) with
            x := f32.round
              (f64.round ((1 / 2 : ℚ) + f64.round (1 * (1351079888211149 / 2251799813685248)))),
            y := f32.round
              (f64.round ((13 / 2 : ℚ) + f64.round (0 * (1351079888211149 / 2251799813685248)))) } ∧
      f32.round (f64.round ((1 / 2 : ℚ) + f64.round (1 * (1351079888211149 / 2251799813685248)))) =
        9227469 / 8388608 :=
  ⟨by decide!, by decide!,
    (move_commits_open_candidate ⟨1 / 2, 13 / 2, 0, 0⟩ 1 0 (frameDeltaTime 400) false
      (1351079888211149 / 2251799813685248) (by decide!)).1 (by decide!),
    by decide!⟩

/-- C6, evaluated at a failing input: the spawn scan puts the camera at
(0.5, 6.5); one tick of 400 ms with S pressed, cosAngle = 1 and sinAngle = 0
leaves it at x = -13421773/134217728 (the `f32` nearest to -0.1), outside
[0, 8) x [0, 8), in the cell (-1, 6) that `checkCollision` reports closed. -/
theorem camera_leaves_grid_through_spawn_cell :
    initCamera = ⟨1 / 2, 13 / 2, 0, 0⟩ ∧
      runTicks initCamera [⟨⟨false, true, false, false, false⟩, frameDeltaTime 400, 1, 0⟩] =
        ⟨-13421773 / 134217728, 13 / 2, 0, 0⟩ ∧
      (-13421773 / 134217728 : ℚ) < 0 ∧
      checkCollision ⌊(runTicks initCamera
          [⟨⟨false, true, false, false, false⟩, frameDeltaTime 400, 1, 0⟩]).x⌋
        ⌊(runTicks initCamera
          [⟨⟨false, true, false, false, false⟩, frameDeltaTime 400, 1, 0⟩]).y⌋ = false := by
  decide!

/-! ## DDA: hit test, termination -/

theorem hitTest_eq_not_checkCollision (x y : Int) : hitTest x y = !checkCollision x y := by
  unfold hitTest checkCollision
  by_cases hb : (decide (x < 0) || decide (x ≥ 8) || decide (y < 0) || decide (y ≥ 8)) = true
  · simp [hb]
  · have hb2 : (decide (x < 0) || decide (x ≥ 8) || decide (y < 0) || decide (y ≥ 8)) = false := by
      simpa using hb
    rw [if_neg hb, hb2]
    rcases Nat.eq_zero_or_pos (mapAt (x + y * 8)) with h0 | h0
    · simp [h0]
    · by_cases h6 : mapAt (x + y * 8) = 6
      · simp [h6]
      · simp [h0, h6, Nat.pos_iff_ne_zero.mp h0]

theorem inBounds_of_hitTest_false {x y : Int} (h : hitTest x y = false) :
    0 ≤ x ∧ x < 8 ∧ 0 ≤ y ∧ y < 8 := by
  apply checkCollision_inBounds
  rw [hitTest_eq_not_checkCollision] at h
  simpa using h

theorem ddaStep_cases (r : Ray) (s : Dda) :
    ((ddaStep r s).mapX = s.mapX + r.stepX ∧ (ddaStep r s).mapY = s.mapY ∧
        (ddaStep r s).side = 0) ∨
      ((ddaStep r s).mapX = s.mapX ∧ (ddaStep r s).mapY = s.mapY + r.stepY ∧
        (ddaStep r s).side = 1) := by
  unfold ddaStep
  split_ifs
  · exact Or.inl ⟨rfl, rfl, rfl⟩
  · exact Or.inr ⟨rfl, rfl, rfl⟩

theorem ddaTrace_succ (r : Ray) (fuel : Nat) (s : Dda) :
    ddaTrace r (fuel + 1) s =
      if hitTest (ddaStep r s).mapX (ddaStep r s).mapY then some [ddaStep r s]
      else (ddaTrace r fuel (ddaStep r s)).map (fun tr => ddaStep r s :: tr) := rfl

theorem ddaTrace_mono (r : Ray) :
    ∀ (fuel : Nat) (s : Dda) (tr : List Dda), ddaTrace r fuel s = some tr →
      ∀ fuel2, fuel ≤ fuel2 → ddaTrace r fuel2 s = some tr := by
  intro fuel
  induction fuel with
  | zero => intro s tr h; simp [ddaTrace] at h
  | succ n ih =>
    intro s tr h fuel2 hle
    obtain ⟨m, rfl⟩ : ∃ m, fuel2 = m + 1 := ⟨fuel2 - 1, by omega⟩
    rw [ddaTrace_succ] at h ⊢
    by_cases hh : hitTest (ddaStep r s).mapX (ddaStep r s).mapY = true
    · rw [if_pos hh] at h ⊢
      exact h
    · rw [if_neg hh] at h ⊢
      obtain ⟨tr2, h2, rfl⟩ := Option.map_eq_some.mp h
      rw [ih _ _ h2 m (by omega)]
      rfl

theorem ddaTrace_bounded (r : Ray) (hsx : r.stepX = 1 ∨ r.stepX = -1)
    (hsy : r.stepY = 1 ∨ r.stepY = -1) :
    ∀ (n : Nat) (s : Dda), 0 ≤ s.mapX → s.mapX < 8 → 0 ≤ s.mapY → s.mapY < 8 →
      stepsLeft r s ≤ n →
      ∃ tr, ddaTrace r (n + 1) s = some tr ∧ 1 ≤ tr.length ∧ tr.length ≤ n + 1 := by
  intro n
  induction n with
  | zero =>
    intro s hx0 hx8 hy0 hy8 hn
    rw [ddaTrace_succ]
    by_cases hh : hitTest (ddaStep r s).mapX (ddaStep r s).mapY = true
    · rw [if_pos hh]
      exact ⟨_, rfl, by simp, by simp⟩
    · exfalso
      have hb := inBounds_of_hitTest_false (by simpa using hh)
      unfold stepsLeft at hn
      rcases ddaStep_cases r s with ⟨h1, h2, -⟩ | ⟨h1, h2, -⟩ <;>
        rcases hsx with hx | hx <;> rcases hsy with hy | hy <;>
        simp only [hx, hy, if_true] at hn <;> rw [h1, h2] at hb <;>
        simp at hn <;> omega
  | succ m ih =>
    intro s hx0 hx8 hy0 hy8 hn
    rw [ddaTrace_succ]
    by_cases hh : hitTest (ddaStep r s).mapX (ddaStep r s).mapY = true
    · rw [if_pos hh]
      exact ⟨_, rfl, by simp, by simp⟩
    · rw [if_neg hh]
      have hb := inBounds_of_hitTest_false (by simpa using hh)
      have hleft : stepsLeft r (ddaStep r s) ≤ m := by
        unfold stepsLeft at hn ⊢
        rcases ddaStep_cases r s with ⟨h1, h2, -⟩ | ⟨h1, h2, -⟩ <;>
          rcases hsx with hx | hx <;> rcases hsy with hy | hy <;>
          simp only [hx, hy, if_true] at hn ⊢ <;> rw [h1, h2] at hb ⊢ <;>
          simp at hn ⊢ <;> omega
      obtain ⟨tr, htr, hl1, hl2⟩ := ih (ddaStep r s) hb.1 hb.2.1 hb.2.2.1 hb.2.2.2 hleft
      refine ⟨ddaStep r s :: tr, by rw [htr]; rfl, by simp, by simp; omega⟩

theorem stepsLeft_le (r : Ray) (hsx : r.stepX = 1 ∨ r.stepX = -1)
    (hsy : r.stepY = 1 ∨ r.stepY = -1) (s : Dda)
    (hx0 : 0 ≤ s.mapX) (hx8 : s.mapX < 8) (hy0 : 0 ≤ s.mapY) (hy8 : s.mapY < 8) :
    stepsLeft r s ≤ 14 := by
  unfold stepsLeft
  rcases hsx with hx | hx <;> rcases hsy with hy | hy <;> simp [hx, hy] <;> omega

theorem mkRay_stepX (sq : ℚ → ℚ) (dirX dirY : ℚ) :
    (mkRay sq dirX dirY).stepX = 1 ∨ (mkRay sq dirX dirY).stepX = -1 := by
  unfold mkRay
  by_cases h : dirX < 0 <;> simp [h]

theorem mkRay_stepY (sq : ℚ → ℚ) (dirX dirY : ℚ) :
    (mkRay sq dirX dirY).stepY = 1 ∨ (mkRay sq dirX dirY).stepY = -1 := by
  unfold mkRay
  by_cases h : dirY < 0 <;> simp [h]

/-- C1: for every camera position inside the 8x8 grid and every ray direction
(whatever `sqrt` returns), the DDA loop stops: with any fuel of at least 16
it returns the same trace, which has one entry per iteration, at least one
and at most 16. -/
theorem dda_terminates_within_16 (sq : ℚ → ℚ) (cam : Camera) (dirX dirY : ℚ)
    (hx0 : 0 ≤ cam.x) (hx8 : cam.x < 8) (hy0 : 0 ≤ cam.y) (hy8 : cam.y < 8) :
    ∃ tr, (∀ fuel, 16 ≤ fuel →
        ddaTrace (mkRay sq dirX dirY) fuel (ddaInit cam (mkRay sq dirX dirY)) = some tr) ∧
      1 ≤ tr.length ∧ tr.length ≤ 16 := by
  have bx := truncQ_bounds hx0 hx8
  have b_y := truncQ_bounds hy0 hy8
  have hsx := mkRay_stepX sq dirX dirY
  have hsy := mkRay_stepY sq dirX dirY
  have hleft := stepsLeft_le _ hsx hsy (ddaInit cam (mkRay sq dirX dirY))
    bx.1 bx.2 b_y.1 b_y.2
  obtain ⟨tr, htr, h1, h2⟩ := ddaTrace_bounded _ hsx hsy 14
    (ddaInit cam (mkRay sq dirX dirY)) bx.1 bx.2 b_y.1 b_y.2 hleft
  exact ⟨tr, fun fuel hf => ddaTrace_mono _ _ _ _ htr fuel (by omega), h1, by omega⟩

theorem dda_terminates_within_16_witness :
    ∃ tr, (∀ fuel, 16 ≤ fuel →
        ddaTrace (mkRay Rat.sqrt 1 0) fuel (ddaInit ⟨3 / 2, 3 / 2, 0, 0⟩ (mkRay Rat.sqrt 1 0)) =
          some tr) ∧
      1 ≤ tr.length ∧ tr.length ≤ 16 :=
  dda_terminates_within_16 Rat.sqrt ⟨3 / 2, 3 / 2, 0, 0⟩ 1 0
    (by norm_num) (by norm_num) (by norm_num) (by norm_num)

/-! ## DDA: stop condition -/

theorem ddaTrace_spec (r : Ray) :
    ∀ (fuel : Nat) (s : Dda) (tr : List Dda), ddaTrace r fuel s = some tr →
      tr = (List.range tr.length).map (fun i => (ddaStep r)^[i + 1] s) ∧
      ∃ pre last, tr = pre ++ [last] ∧ hitTest last.mapX last.mapY = true ∧
        ∀ c ∈ pre, hitTest c.mapX c.mapY = false := by
  intro fuel
  induction fuel with
  | zero => intro s tr h; simp [ddaTrace] at h
  | succ n ih =>
    intro s tr h
    rw [ddaTrace_succ] at h
    by_cases hh : hitTest (ddaStep r s).mapX (ddaStep r s).mapY = true
    · rw [if_pos hh] at h
      obtain rfl : [ddaStep r s] = tr := by simpa using h
      exact ⟨by simp, [], ddaStep r s, by simp, hh, by simp⟩
    · rw [if_neg hh] at h
      obtain ⟨tr2, h2, rfl⟩ := Option.map_eq_some.mp h
      obtain ⟨hiter, pre, last, hpre, hlast, hall⟩ := ih _ _ h2
      refine ⟨?_, ddaStep r s :: pre, last, by rw [hpre]; rfl, hlast, ?_⟩
      · rw [List.length_cons, List.range_succ_eq_map, List.map_cons, List.map_map]
        congr 1
      · intro c hc
        rcases List.mem_cons.mp hc with rfl | hc
        · simpa using hh
        · exact hall c hc

/-- C2: the hit test of the loop is the negation of `checkCollision`; so when
the DDA returns, its trace is the successive steps from the start state, the
cell of the last entry is not open, the cell of every earlier entry is open,
and a cell of the grid holding the spawn code 6 never passes the hit test. -/
theorem dda_stops_iff_cell_not_open (r : Ray) (fuel : Nat) (s : Dda) (tr : List Dda)
    (h : ddaTrace r fuel s = some tr) :
    (∀ x y, hitTest x y = !checkCollision x y) ∧
      tr = (List.range tr.length).map (fun i => (ddaStep r)^[i + 1] s) ∧
      (∃ pre last, tr = pre ++ [last] ∧ checkCollision last.mapX last.mapY = false ∧
        ∀ c ∈ pre, checkCollision c.mapX c.mapY = true) ∧
      (∀ x y : Int, 0 ≤ x → x < 8 → 0 ≤ y → y < 8 → mapAt (x + y * 8) = 6 →
        hitTest x y = false) := by
  obtain ⟨hiter, pre, last, hpre, hlast, hall⟩ := ddaTrace_spec r fuel s tr h
  refine ⟨hitTest_eq_not_checkCollision, hiter, ⟨pre, last, hpre, ?_, ?_⟩, ?_⟩
  · rw [hitTest_eq_not_checkCollision] at hlast
    simpa using hlast
  · intro c hc
    have := hall c hc
    rw [hitTest_eq_not_checkCollision] at this
    simpa using this
  · intro x y hx0 hx8 hy0 hy8 h6
    have hb : (decide (x < 0) || decide (x ≥ 8) || decide (y < 0) || decide (y ≥ 8)) = false := by
      simp only [Bool.or_eq_false_iff, decide_eq_false_iff_not]
      omega
    unfold hitTest
    rw [hb, h6]
    rfl

theorem dda_stops_iff_cell_not_open_witness :
    ddaTrace (mkRay Rat.sqrt 1 0) 2 ⟨5, 1, f64.fin (1 / 2), f64.pinf, 0⟩ =
        some [⟨6, 1, f64.fin (3 / 2), f64.pinf, 0⟩, ⟨7, 1, f64.fin (5 / 2), f64.pinf, 0⟩] ∧
      ∃ pre last, [(⟨6, 1, f64.fin (3 / 2), f64.pinf, 0⟩ : Dda),
          ⟨7, 1, f64.fin (5 / 2), f64.pinf, 0⟩] = pre ++ [last] ∧
        checkCollision last.mapX last.mapY = false ∧
        ∀ c ∈ pre, checkCollision c.mapX c.mapY = true :=
  ⟨by decide!,
    (dda_stops_iff_cell_not_open (mkRay Rat.sqrt 1 0) 2 ⟨5, 1, f64.fin (1 / 2), f64.pinf, 0⟩
      _ (by decide!)).2.2.1⟩

/-! ## DDA along an axis -/

theorem ddaTrace_along_x (r : Ray) (δ : ℚ) (hδ : r.deltaDistX = f64.fin δ) :
    ∀ (k : Nat) (s : Dda) (a : ℚ), s.sideDistX = f64.fin a → s.sideDistY = f64.pinf →
      (∀ j : Nat, 1 ≤ j → j ≤ k → hitTest (s.mapX + (j : Int) * r.stepX) s.mapY = false) →
      hitTest (s.mapX + ((k + 1 : Nat) : Int) * r.stepX) s.mapY = true →
      ∀ fuel, k + 1 ≤ fuel → ∃ pre last, ddaTrace r fuel s = some (pre ++ [last]) ∧
        last.mapX = s.mapX + ((k + 1 : Nat) : Int) * r.stepX ∧ last.mapY = s.mapY ∧
        last.side = 0 := by
  intro k
  induction k with
  | zero =>
    intro s a hsx hsy _ hhit fuel hfuel
    obtain ⟨f, rfl⟩ : ∃ f, fuel = f + 1 := ⟨fuel - 1, by omega⟩
    have hstep : ddaStep r s =
        { s with sideDistX := f64.fin (a + δ), mapX := s.mapX + r.stepX, side := 0 } := by
      unfold ddaStep
      rw [hsx, hsy, hδ]
      simp [f64.lt, f64.add]
    have hhit2 : hitTest (ddaStep r s).mapX (ddaStep r s).mapY = true := by
      rw [hstep]
      simpa using hhit
    refine ⟨[], ddaStep r s, ?_, ?_, ?_, ?_⟩
    · rw [ddaTrace_succ, if_pos hhit2]
      rfl
    · rw [hstep]
      simp
    · rw [hstep]
    · rw [hstep]
  | succ k ih =>
    intro s a hsx hsy hopen hhit fuel hfuel
    obtain ⟨f, rfl⟩ : ∃ f, fuel = f + 1 := ⟨fuel - 1, by omega⟩
    have hstep : ddaStep r s =
        { s with sideDistX := f64.fin (a + δ), mapX := s.mapX + r.stepX, side := 0 } := by
      unfold ddaStep
      rw [hsx, hsy, hδ]
      simp [f64.lt, f64.add]
    have hmx : (ddaStep r s).mapX = s.mapX + r.stepX := by rw [hstep]
    have hmy : (ddaStep r s).mapY = s.mapY := by rw [hstep]
    have hnohit : ¬ hitTest (ddaStep r s).mapX (ddaStep r s).mapY = true := by
      rw [hmx, hmy]
      have := hopen 1 le_rfl (by omega)
      simpa using this
    have hshift : ∀ j : Nat, s.mapX + r.stepX + (j : Int) * r.stepX =
        s.mapX + ((j + 1 : Nat) : Int) * r.stepX := by
      intro j
      push_cast
      ring
    obtain ⟨pre, last, htr, h1, h2, h3⟩ := ih (ddaStep r s) (a + δ) (by rw [hstep]) (by rw [hstep]; exact hsy)
      (by
        intro j hj1 hjk
        rw [hmx, hmy, hshift]
        exact hopen (j + 1) (by omega) (by omega))
      (by
        rw [hmx, hmy, hshift]
        exact hhit)
      f (by omega)
    refine ⟨ddaStep r s :: pre, last, ?_, ?_, ?_, h3⟩
    · rw [ddaTrace_succ, if_neg hnohit, htr]
      rfl
    · rw [h1, hmx, hshift]
    · rw [h2, hmy]

theorem ddaTrace_along_y (r : Ray) (δ : ℚ) (hδ : r.deltaDistY = f64.fin δ) :
    ∀ (k : Nat) (s : Dda) (a : ℚ), s.sideDistX = f64.pinf → s.sideDistY = f64.fin a →
      (∀ j : Nat, 1 ≤ j → j ≤ k → hitTest s.mapX (s.mapY + (j : Int) * r.stepY) = false) →
      hitTest s.mapX (s.mapY + ((k + 1 : Nat) : Int) * r.stepY) = true →
      ∀ fuel, k + 1 ≤ fuel → ∃ pre last, ddaTrace r fuel s = some (pre ++ [last]) ∧
        last.mapX = s.mapX ∧ last.mapY = s.mapY + ((k + 1 : Nat) : Int) * r.stepY ∧
        last.side = 1 := by
  intro k
  induction k with
  | zero =>
    intro s a hsx hsy _ hhit fuel hfuel
    obtain ⟨f, rfl⟩ : ∃ f, fuel = f + 1 := ⟨fuel - 1, by omega⟩
    have hstep : ddaStep r s =
        { s with sideDistY := f64.fin (a + δ), mapY := s.mapY + r.stepY, side := 1 } := by
      unfold ddaStep
      rw [hsx, hsy, hδ]
      simp [f64.lt, f64.add]
    have hhit2 : hitTest (ddaStep r s).mapX (ddaStep r s).mapY = true := by
      rw [hstep]
      simpa using hhit
    refine ⟨[], ddaStep r s, ?_, ?_, ?_, ?_⟩
    · rw [ddaTrace_succ, if_pos hhit2]
      rfl
    · rw [hstep]
    · rw [hstep]
      simp
    · rw [hstep]
  | succ k ih =>
    intro s a hsx hsy hopen hhit fuel hfuel
    obtain ⟨f, rfl⟩ : ∃ f, fuel = f + 1 := ⟨fuel - 1, by omega⟩
    have hstep : ddaStep r s =
        { s with sideDistY := f64.fin (a + δ), mapY := s.mapY + r.stepY, side := 1 } := by
      unfold ddaStep
      rw [hsx, hsy, hδ]
      simp [f64.lt, f64.add]
    have hmx : (ddaStep r s).mapX = s.mapX := by rw [hstep]
    have hmy : (ddaStep r s).mapY = s.mapY + r.stepY := by rw [hstep]
    have hnohit : ¬ hitTest (ddaStep r s).mapX (ddaStep r s).mapY = true := by
      rw [hmx, hmy]
      have := hopen 1 le_rfl (by omega)
      simpa using this
    have hshift : ∀ j : Nat, s.mapY + r.stepY + (j : Int) * r.stepY =
        s.mapY + ((j + 1 : Nat) : Int) * r.stepY := by
      intro j
      push_cast
      ring
    obtain ⟨pre, last, htr, h1, h2, h3⟩ := ih (ddaStep r s) (a + δ) (by rw [hstep]; exact hsx) (by rw [hstep])
      (by
        intro j hj1 hjk
        rw [hmx, hmy, hshift]
        exact hopen (j + 1) (by omega) (by omega))
      (by
        rw [hmx, hmy, hshift]
        exact hhit)
      f (by omega)
    refine ⟨ddaStep r s :: pre, last, ?_, ?_, ?_, h3⟩
    · rw [ddaTrace_succ, if_neg hnohit, htr]
      rfl
    · rw [h1, hmx]
    · rw [h2, hmy, hshift]

theorem mkRay_x_axis (sq : ℚ → ℚ) (dX : ℚ) (hdX : dX ≠ 0) :
    (mkRay sq dX 0).deltaDistX = f64.fin (sq 1) ∧ (mkRay sq dX 0).deltaDistY = f64.pinf ∧
      (mkRay sq dX 0).stepY = 1 ∧ (mkRay sq dX 0).rayDirX = dX ∧
      (mkRay sq dX 0).rayDirY = 0 := by
  have hpos : 0 < dX * dX := mul_self_pos.mpr hdX
  refine ⟨?_, ?_, ?_, rfl, rfl⟩
  · simp [mkRay, deltaDist, f64.div, f64.add, f64.sqrt, hdX]
  · simp [mkRay, deltaDist, f64.div, f64.add, f64.sqrt, f64.signedInf, hpos]
  · simp [mkRay]

theorem mkRay_y_axis (sq : ℚ → ℚ) (dY : ℚ) (hdY : dY ≠ 0) :
    (mkRay sq 0 dY).deltaDistY = f64.fin (sq 1) ∧ (mkRay sq 0 dY).deltaDistX = f64.pinf ∧
      (mkRay sq 0 dY).stepX = 1 ∧ (mkRay sq 0 dY).rayDirX = 0 ∧
      (mkRay sq 0 dY).rayDirY = dY := by
  have hpos : 0 < dY * dY := mul_self_pos.mpr hdY
  refine ⟨?_, ?_, ?_, rfl, rfl⟩
  · simp [mkRay, deltaDist, f64.div, f64.add, f64.sqrt, hdY]
  · simp [mkRay, deltaDist, f64.div, f64.add, f64.sqrt, f64.signedInf, hpos]
  · simp [mkRay]

theorem castRay_along_x (sq : ℚ → ℚ) (cam : Camera) (dX : ℚ) (hdX : dX ≠ 0) (k : Nat)
    (hopen : ∀ j : Nat, 1 ≤ j → j ≤ k →
      hitTest (f64.truncQ cam.x + (j : Int) * (mkRay sq dX 0).stepX) (f64.truncQ cam.y) = false)
    (hhit : hitTest (f64.truncQ cam.x + ((k + 1 : Nat) : Int) * (mkRay sq dX 0).stepX)
      (f64.truncQ cam.y) = true)
    (fuel : Nat) (hfuel : k + 1 ≤ fuel) :
    ∃ last, castRay sq cam dX 0 fuel = some last ∧
      last.mapX = f64.truncQ cam.x + ((k + 1 : Nat) : Int) * (mkRay sq dX 0).stepX ∧
      last.mapY = f64.truncQ cam.y ∧ last.side = 0 := by
  obtain ⟨hdx, hdy, -, hrx, hry⟩ := mkRay_x_axis sq dX hdX
  have hfrac : 0 < (f64.truncQ cam.y : ℚ) + 1 - cam.y := by
    have := lt_truncQ_add_one cam.y
    linarith
  have hsy : (ddaInit cam (mkRay sq dX 0)).sideDistY = f64.pinf := by
    simp [ddaInit, hry, hdy, f64.mul, f64.signedInf, hfrac]
  have hsx : ∃ a, (ddaInit cam (mkRay sq dX 0)).sideDistX = f64.fin a := by
    by_cases hneg : dX < 0
    · exact ⟨_, by simp [ddaInit, hrx, hdx, f64.mul, hneg]; rfl⟩
    · exact ⟨_, by simp [ddaInit, hrx, hdx, f64.mul, hneg]; rfl⟩
  obtain ⟨a, ha⟩ := hsx
  obtain ⟨pre, last, htr, h1, h2, h3⟩ := ddaTrace_along_x (mkRay sq dX 0) (sq 1) hdx k
    (ddaInit cam (mkRay sq dX 0)) a ha hsy hopen hhit fuel hfuel
  refine ⟨last, ?_, h1, h2, h3⟩
  unfold castRay
  rw [htr]
  simp

theorem castRay_along_y (sq : ℚ → ℚ) (cam : Camera) (dY : ℚ) (hdY : dY ≠ 0) (k : Nat)
    (hopen : ∀ j : Nat, 1 ≤ j → j ≤ k →
      hitTest (f64.truncQ cam.x) (f64.truncQ cam.y + (j : Int) * (mkRay sq 0 dY).stepY) = false)
    (hhit : hitTest (f64.truncQ cam.x)
      (f64.truncQ cam.y + ((k + 1 : Nat) : Int) * (mkRay sq 0 dY).stepY) = true)
    (fuel : Nat) (hfuel : k + 1 ≤ fuel) :
    ∃ last, castRay sq cam 0 dY fuel = some last ∧
      last.mapX = f64.truncQ cam.x ∧
      last.mapY = f64.truncQ cam.y + ((k + 1 : Nat) : Int) * (mkRay sq 0 dY).stepY ∧
      last.side = 1 := by
  obtain ⟨hdy, hdx, -, hrx, hry⟩ := mkRay_y_axis sq dY hdY
  have hfrac : 0 < (f64.truncQ cam.x : ℚ) + 1 - cam.x := by
    have := lt_truncQ_add_one cam.x
    linarith
  have hsx : (ddaInit cam (mkRay sq 0 dY)).sideDistX = f64.pinf := by
    simp [ddaInit, hrx, hdx, f64.mul, f64.signedInf, hfrac]
  have hsy : ∃ a, (ddaInit cam (mkRay sq 0 dY)).sideDistY = f64.fin a := by
    by_cases hneg : dY < 0
    · exact ⟨_, by simp [ddaInit, hry, hdy, f64.mul, hneg]; rfl⟩
    · exact ⟨_, by simp [ddaInit, hry, hdy, f64.mul, hneg]; rfl⟩
  obtain ⟨a, ha⟩ := hsy
  obtain ⟨pre, last, htr, h1, h2, h3⟩ := ddaTrace_along_y (mkRay sq 0 dY) (sq 1) hdy k
    (ddaInit cam (mkRay sq 0 dY)) a hsx ha hopen hhit fuel hfuel
  refine ⟨last, ?_, h1, h2, h3⟩
  unfold castRay
  rw [htr]
  simp

/-! ## Perpendicular distance of axis-aligned rays -/

theorem perpWallDist_x (cam : Camera) (r : Ray) (s : Dda) (hside : s.side = 0)
    (hdir : r.rayDirX ≠ 0) :
    perpWallDist cam r s =
      f64.fin (f64.round (f32.round (f32.round ((s.mapX : ℚ) - cam.x) +
        (Int.tdiv (1 - r.stepX) 2 : Int)) / r.rayDirX)) := by
  simp [perpWallDist, hside, f64.div, f64.rnd, hdir]

theorem perpWallDist_y (cam : Camera) (r : Ray) (s : Dda) (hside : s.side = 1)
    (hdir : r.rayDirY ≠ 0) :
    perpWallDist cam r s =
      f64.fin (f64.round (f32.round (f32.round ((s.mapY : ℚ) - cam.y) +
        (Int.tdiv (1 - r.stepY) 2 : Int)) / r.rayDirY)) := by
  simp [perpWallDist, hside, f64.div, f64.rnd, hdir]

theorem f32_round_err (q : ℚ) (h : |q| < 16) : |f32.round q - q| ≤ 1 / 2097152 := by
  have := roundTo_err 24 q 4 (by norm_num; exact h)
  norm_num at this
  exact this

theorem f64_round_err (q : ℚ) (h : |q| < 16) :
    |f64.round q - q| ≤ 1 / 1125899906842624 := by
  have := roundTo_err 53 q 4 (by norm_num; exact h)
  norm_num at this
  exact this

/-- The accumulated rounding error of the perpendicular distance along a
unit direction: two `f32` operations and one `f64` division. -/
theorem perp_err (t : ℚ) (adj : Int) (dir : ℚ) (ht : |t| ≤ 9) (hadj : adj = 0 ∨ adj = 1)
    (hdir : dir = 1 ∨ dir = -1) :
    |f64.round (f32.round (f32.round t + (adj : ℚ)) / dir) - (t + (adj : ℚ)) / dir|
      ≤ 1 / 1000000 := by
  have ht' := abs_le.mp ht
  have e1 := abs_le.mp (f32_round_err t (by rw [abs_lt]; constructor <;> linarith))
  have hadj' : (0 : ℚ) ≤ (adj : ℚ) ∧ (adj : ℚ) ≤ 1 := by
    rcases hadj with h | h <;> rw [h] <;> norm_num
  have e2 := abs_le.mp (f32_round_err (f32.round t + (adj : ℚ))
    (by rw [abs_lt]; constructor <;> linarith))
  rcases hdir with rfl | rfl
  · have e3 := abs_le.mp (f64_round_err (f32.round (f32.round t + (adj : ℚ)) / 1)
      (by rw [div_one, abs_lt]; constructor <;> linarith))
    rw [div_one] at e3 ⊢
    rw [div_one, abs_le]
    constructor <;> linarith
  · have e3 := abs_le.mp (f64_round_err (f32.round (f32.round t + (adj : ℚ)) / -1)
      (by rw [div_neg, div_one, abs_lt]; constructor <;> linarith))
    rw [div_neg, div_one] at e3 ⊢
    rw [div_neg, div_one, abs_le]
    constructor <;> linarith

theorem axis_ray_cell (sq : ℚ → ℚ) (cam : Camera) (a : Axis) (k fuel : Nat)
    (hcam : checkCollision ⌊cam.x⌋ ⌊cam.y⌋ = true) (hk : 1 ≤ k)
    (hopen : ∀ j : Nat, 1 ≤ j → j < k →
      checkCollision (cellAhead cam a j).1 (cellAhead cam a j).2 = true)
    (hsolid : checkCollision (cellAhead cam a k).1 (cellAhead cam a k).2 = false)
    (hfuel : k ≤ fuel) :
    ∃ last, castRay sq cam a.dir.1 a.dir.2 fuel = some last ∧
      (last.mapX, last.mapY) = cellAhead cam a k ∧ last.side = a.side := by
  obtain ⟨htx, hty⟩ := checkCollision_floor_trunc hcam
  obtain ⟨k, rfl⟩ : ∃ m, k = m + 1 := ⟨k - 1, by omega⟩
  cases a with
  | posX =>
    have hsx : (mkRay sq 1 0).stepX = 1 := by simp [mkRay]
    simp only [Axis.dir, Axis.side, cellAhead] at hopen hsolid ⊢
    obtain ⟨last, hc, h1, h2, h3⟩ := castRay_along_x sq cam 1 one_ne_zero k
      (by
        intro j hj1 hjk
        rw [hsx, htx, hty, hitTest_eq_not_checkCollision, mul_one, hopen j hj1 (by omega)]
        rfl)
      (by
        rw [hsx, htx, hty, hitTest_eq_not_checkCollision, mul_one, hsolid]
        rfl)
      fuel hfuel
    refine ⟨last, hc, ?_, h3⟩
    rw [h1, h2, hsx, htx, hty, mul_one]
  | negX =>
    have hsx : (mkRay sq (-1) 0).stepX = -1 := by simp [mkRay]
    simp only [Axis.dir, Axis.side, cellAhead] at hopen hsolid ⊢
    have hcell : ∀ j : Nat, ⌊cam.x⌋ + (j : Int) * -1 = ⌊cam.x⌋ - j := by intro j; ring
    obtain ⟨last, hc, h1, h2, h3⟩ := castRay_along_x sq cam (-1) (by norm_num) k
      (by
        intro j hj1 hjk
        rw [hsx, htx, hty, hitTest_eq_not_checkCollision, hcell, hopen j hj1 (by omega)]
        rfl)
      (by
        rw [hsx, htx, hty, hitTest_eq_not_checkCollision, hcell, hsolid]
        rfl)
      fuel hfuel
    refine ⟨last, hc, ?_, h3⟩
    rw [h1, h2, hsx, htx, hty, hcell]
  | posY =>
    have hsy : (mkRay sq 0 1).stepY = 1 := by simp [mkRay]
    simp only [Axis.dir, Axis.side, cellAhead] at hopen hsolid ⊢
    obtain ⟨last, hc, h1, h2, h3⟩ := castRay_along_y sq cam 1 one_ne_zero k
      (by
        intro j hj1 hjk
        rw [hsy, htx, hty, hitTest_eq_not_checkCollision, mul_one, hopen j hj1 (by omega)]
        rfl)
      (by
        rw [hsy, htx, hty, hitTest_eq_not_checkCollision, mul_one, hsolid]
        rfl)
      fuel hfuel
    refine ⟨last, hc, ?_, h3⟩
    rw [h1, h2, hsy, htx, hty, mul_one]
  | negY =>
    have hsy : (mkRay sq 0 (-1)).stepY = -1 := by simp [mkRay]
    simp only [Axis.dir, Axis.side, cellAhead] at hopen hsolid ⊢
    have hcell : ∀ j : Nat, ⌊cam.y⌋ + (j : Int) * -1 = ⌊cam.y⌋ - j := by intro j; ring
    obtain ⟨last, hc, h1, h2, h3⟩ := castRay_along_y sq cam (-1) (by norm_num) k
      (by
        intro j hj1 hjk
        rw [hsy, htx, hty, hitTest_eq_not_checkCollision, hcell, hopen j hj1 (by omega)]
        rfl)
      (by
        rw [hsy, htx, hty, hitTest_eq_not_checkCollision, hcell, hsolid]
        rfl)
      fuel hfuel
    refine ⟨last, hc, ?_, h3⟩
    rw [h1, h2, hsy, htx, hty, hcell]

theorem cellAhead_prev_open (cam : Camera) (a : Axis) (k : Nat)
    (hcam : checkCollision ⌊cam.x⌋ ⌊cam.y⌋ = true) (hk : 1 ≤ k)
    (hopen : ∀ j : Nat, 1 ≤ j → j < k →
      checkCollision (cellAhead cam a j).1 (cellAhead cam a j).2 = true) :
    checkCollision (cellAhead cam a (k - 1)).1 (cellAhead cam a (k - 1)).2 = true := by
  rcases Nat.eq_or_lt_of_le hk with h1 | h1
  · rw [← h1]
    cases a <;> simpa [cellAhead] using hcam
  · exact hopen (k - 1) (by omega) (by omega)

theorem abs_cell_sub_le (m : Int) (x : ℚ) (hm1 : -1 ≤ m) (hm8 : m ≤ 8) (hx0 : 0 ≤ x)
    (hx8 : x < 8) : |(m : ℚ) - x| ≤ 9 := by
  have h1 : ((-1 : Int) : ℚ) ≤ (m : ℚ) := by exact_mod_cast hm1
  have h2 : (m : ℚ) ≤ ((8 : Int) : ℚ) := by exact_mod_cast hm8
  push_cast at h1 h2
  rw [abs_le]
  constructor <;> linarith

/-- C3 fails as stated: with the camera at (1 + 2^-23, 1.5), cosAngle = 1,
sinAngle = 0 and the centre column, the ray is aimed exactly along +x; the
first solid cell ahead is (7, 1), its nearest face is 6 - 2^-23 cells away,
and the computed perpWallDist is 6: the `f32` subtraction `mapX - camera.x`
rounds. -/
theorem axis_ray_perp_dist_rounds :
    rayDirX 1 0 (WIDTH / 2) = 1 ∧ rayDirY 1 0 (WIDTH / 2) = 0 ∧
      f32.round (1 + 1 / 8388608) = 1 + 1 / 8388608 ∧
      checkCollision ⌊(1 + 1 / 8388608 : ℚ)⌋ ⌊(3 / 2 : ℚ)⌋ = true ∧
      (∀ j : Nat, j < 6 → 1 ≤ j →
        checkCollision (cellAhead ⟨1 + 1 / 8388608, 3 / 2, 0, 0⟩ .posX j).1
          (cellAhead ⟨1 + 1 / 8388608, 3 / 2, 0, 0⟩ .posX j).2 = true) ∧
      cellAhead ⟨1 + 1 / 8388608, 3 / 2, 0, 0⟩ .posX 6 = (7, 1) ∧
      checkCollision 7 1 = false ∧
      faceDist ⟨1 + 1 / 8388608, 3 / 2, 0, 0⟩ .posX 6 = 6 - 1 / 8388608 ∧
      (castRay Rat.sqrt ⟨1 + 1 / 8388608, 3 / 2, 0, 0⟩ (rayDirX 1 0 (WIDTH / 2))
          (rayDirY 1 0 (WIDTH / 2)) 16).map (fun last => (last.mapX, last.mapY, last.side)) =
        some (7, 1, 0) ∧
      (castRay Rat.sqrt ⟨1 + 1 / 8388608, 3 / 2, 0, 0⟩ (rayDirX 1 0 (WIDTH / 2))
          (rayDirY 1 0 (WIDTH / 2)) 16).map
        (perpWallDist ⟨1 + 1 / 8388608, 3 / 2, 0, 0⟩
          (mkRay Rat.sqrt (rayDirX 1 0 (WIDTH / 2)) (rayDirY 1 0 (WIDTH / 2)))) =
        some (f64.fin 6) ∧
      f64.fin 6 ≠ f64.fin (6 - 1 / 8388608) := by
  decide!

/-- C3 (amended): for every camera position inside an open cell and every ray
aimed exactly along +x, -x, +y or -y (unit direction), where the first solid
cell in that direction is `k` cells ahead and its nearest face is
`d = faceDist cam a k` cells from the camera, the DDA stops in that cell on
the side of the axis and the computed perpWallDist differs from `d` by at
most 1e-6.  Instance: camera (1.5, 1.5), cosAngle = 1, sinAngle = 0, centre
column: the ray stops at mapX = 7 on the X side, perpWallDist = 5.5 exactly
and the stripe height is 130. -/
theorem axis_ray_perp_dist (sq : ℚ → ℚ) (cam : Camera) (a : Axis) (k fuel : Nat)
    (hcam : checkCollision ⌊cam.x⌋ ⌊cam.y⌋ = true) (hk : 1 ≤ k)
    (hopen : ∀ j : Nat, 1 ≤ j → j < k →
      checkCollision (cellAhead cam a j).1 (cellAhead cam a j).2 = true)
    (hsolid : checkCollision (cellAhead cam a k).1 (cellAhead cam a k).2 = false)
    (hfuel : k ≤ fuel) :
    (∃ (last : Dda) (d : ℚ), castRay sq cam a.dir.1 a.dir.2 fuel = some last ∧
      (last.mapX, last.mapY) = cellAhead cam a k ∧ last.side = a.side ∧
      perpWallDist cam (mkRay sq a.dir.1 a.dir.2) last = f64.fin d ∧
      |d - faceDist cam a k| ≤ 1 / 1000000) ∧
    (∃ hit, castRay sq ⟨3 / 2, 3 / 2, 0, 0⟩ (rayDirX 1 0 (WIDTH / 2))
        (rayDirY 1 0 (WIDTH / 2)) 16 = some hit ∧
      hit.mapX = 7 ∧ hit.side = 0 ∧
      perpWallDist ⟨3 / 2, 3 / 2, 0, 0⟩
        (mkRay sq (rayDirX 1 0 (WIDTH / 2)) (rayDirY 1 0 (WIDTH / 2))) hit = f64.fin (11 / 2) ∧
      lineHeight (f64.fin (11 / 2)) = some 130) := by
  constructor
  · obtain ⟨last, hc, hcell, hside⟩ := axis_ray_cell sq cam a k fuel hcam hk hopen hsolid hfuel
    have hprev := checkCollision_inBounds (cellAhead_prev_open cam a k hcam hk hopen)
    obtain ⟨hx0, hx8, hy0, hy8⟩ := checkCollision_inBounds hcam
    have hfx := Int.floor_le cam.x
    have hfx1 := Int.lt_floor_add_one cam.x
    have hfy := Int.floor_le cam.y
    have hfy1 := Int.lt_floor_add_one cam.y
    have cx0 : (0 : ℚ) ≤ cam.x := le_trans (by exact_mod_cast hx0) hfx
    have cx8 : cam.x < 8 := by
      have : (⌊cam.x⌋ : ℚ) + 1 ≤ 8 := by exact_mod_cast (show ⌊cam.x⌋ + 1 ≤ 8 by omega)
      linarith
    have cy0 : (0 : ℚ) ≤ cam.y := le_trans (by exact_mod_cast hy0) hfy
    have cy8 : cam.y < 8 := by
      have : (⌊cam.y⌋ : ℚ) + 1 ≤ 8 := by exact_mod_cast (show ⌊cam.y⌋ + 1 ≤ 8 by omega)
      linarith
    have t0 : Int.tdiv (1 - 1) 2 = 0 := by decide
    have t1 : Int.tdiv (1 - (-1)) 2 = 1 := by decide
    cases a with
    | posX =>
      simp only [Axis.dir, Axis.side, cellAhead, faceDist] at hc hcell hside hprev ⊢
      have hmx : last.mapX = ⌊cam.x⌋ + k := (Prod.mk.inj hcell).1
      have hsx : (mkRay sq 1 0).stepX = 1 := by simp [mkRay]
      have hrd : (mkRay sq 1 0).rayDirX = 1 := rfl
      refine ⟨last, _, hc, hcell, hside,
        perpWallDist_x cam _ last hside (by rw [hrd]; exact one_ne_zero), ?_⟩
      rw [hsx, hrd, t0, hmx]
      have := perp_err (((⌊cam.x⌋ + k : Int) : ℚ) - cam.x) 0 1
        (abs_cell_sub_le _ _ (by omega) (by omega) cx0 cx8) (Or.inl rfl) (Or.inl rfl)
      simpa using this
    | negX =>
      simp only [Axis.dir, Axis.side, cellAhead, faceDist] at hc hcell hside hprev ⊢
      have hmx : last.mapX = ⌊cam.x⌋ - k := (Prod.mk.inj hcell).1
      have hsx : (mkRay sq (-1) 0).stepX = -1 := by simp [mkRay]
      have hrd : (mkRay sq (-1) 0).rayDirX = -1 := rfl
      refine ⟨last, _, hc, hcell, hside,
        perpWallDist_x cam _ last hside (by rw [hrd]; norm_num), ?_⟩
      rw [hsx, hrd, t1, hmx]
      have := perp_err (((⌊cam.x⌋ - k : Int) : ℚ) - cam.x) 1 (-1)
        (abs_cell_sub_le _ _ (by omega) (by omega) cx0 cx8) (Or.inr rfl) (Or.inr rfl)
      have e : ((((⌊cam.x⌋ - k : Int) : ℚ) - cam.x) + ((1 : Int) : ℚ)) / -1 =
          cam.x - ((⌊cam.x⌋ - k + 1 : Int) : ℚ) := by
        push_cast
        ring
      rw [e] at this
      exact this
    | posY =>
      simp only [Axis.dir, Axis.side, cellAhead, faceDist] at hc hcell hside hprev ⊢
      have hmy : last.mapY = ⌊cam.y⌋ + k := (Prod.mk.inj hcell).2
      have hsy : (mkRay sq 0 1).stepY = 1 := by simp [mkRay]
      have hrd : (mkRay sq 0 1).rayDirY = 1 := rfl
      refine ⟨last, _, hc, hcell, hside,
        perpWallDist_y cam _ last hside (by rw [hrd]; exact one_ne_zero), ?_⟩
      rw [hsy, hrd, t0, hmy]
      have := perp_err (((⌊cam.y⌋ + k : Int) : ℚ) - cam.y) 0 1
        (abs_cell_sub_le _ _ (by omega) (by omega) cy0 cy8) (Or.inl rfl) (Or.inl rfl)
      simpa using this
    | negY =>
      simp only [Axis.dir, Axis.side, cellAhead, faceDist] at hc hcell hside hprev ⊢
      have hmy : last.mapY = ⌊cam.y⌋ - k := (Prod.mk.inj hcell).2
      have hsy : (mkRay sq 0 (-1)).stepY = -1 := by simp [mkRay]
      have hrd : (mkRay sq 0 (-1)).rayDirY = -1 := rfl
      refine ⟨last, _, hc, hcell, hside,
        perpWallDist_y cam _ last hside (by rw [hrd]; norm_num), ?_⟩
      rw [hsy, hrd, t1, hmy]
      have := perp_err (((⌊cam.y⌋ - k : Int) : ℚ) - cam.y) 1 (-1)
        (abs_cell_sub_le _ _ (by omega) (by omega) cy0 cy8) (Or.inr rfl) (Or.inr rfl)
      have e : ((((⌊cam.y⌋ - k : Int) : ℚ) - cam.y) + ((1 : Int) : ℚ)) / -1 =
          cam.y - ((⌊cam.y⌋ - k + 1 : Int) : ℚ) := by
        push_cast
        ring
      rw [e] at this
      exact this
  · have e1 : rayDirX 1 0 (WIDTH / 2) = Axis.posX.dir.1 := by decide!
    have e2 : rayDirY 1 0 (WIDTH / 2) = Axis.posX.dir.2 := by decide!
    rw [e1, e2]
    obtain ⟨last, h1, h2, h3⟩ :=
      axis_ray_cell sq ⟨3 / 2, 3 / 2, 0, 0⟩ .posX 6 16 (by decide!) (by norm_num)
        (by
          intro j hj1 hj6
          interval_cases j <;> decide!)
        (by decide!) (by norm_num)
    have hcell : cellAhead ⟨3 / 2, 3 / 2, 0, 0⟩ .posX 6 = (7, 1) := by decide!
    rw [hcell] at h2
    have hmx : last.mapX = 7 := (Prod.mk.inj h2).1
    have hside : last.side = 0 := h3
    have hsx : (mkRay sq 1 0).stepX = 1 := by simp [mkRay]
    have hrd : (mkRay sq 1 0).rayDirX = 1 := rfl
    refine ⟨last, h1, hmx, hside, ?_, by decide!⟩
    show perpWallDist ⟨3 / 2, 3 / 2, 0, 0⟩ (mkRay sq 1 0) last = f64.fin (11 / 2)
    rw [perpWallDist_x _ _ last hside (by rw [hrd]; exact one_ne_zero), hsx, hrd, hmx]
    decide!

theorem axis_ray_perp_dist_witness :
    checkCollision ⌊(3 / 2 : ℚ)⌋ ⌊(3 / 2 : ℚ)⌋ = true ∧
      ∃ (last : Dda) (d : ℚ),
        castRay Rat.sqrt ⟨3 / 2, 3 / 2, 0, 0⟩ Axis.posX.dir.1 Axis.posX.dir.2 16 = some last ∧
        (last.mapX, last.mapY) = cellAhead ⟨3 / 2, 3 / 2, 0, 0⟩ .posX 6 ∧
        last.side = Axis.posX.side ∧
        perpWallDist ⟨3 / 2, 3 / 2, 0, 0⟩ (mkRay Rat.sqrt Axis.posX.dir.1 Axis.posX.dir.2) last =
          f64.fin d ∧
        |d - faceDist ⟨3 / 2, 3 / 2, 0, 0⟩ .posX 6| ≤ 1 / 1000000 :=
  ⟨by decide!,
    (axis_ray_perp_dist Rat.sqrt ⟨3 / 2, 3 / 2, 0, 0⟩ .posX 6 16 (by decide!) (by norm_num)
      (by
        intro j hj1 hj6
        interval_cases j <;> decide!)
      (by decide!) (by norm_num)).1⟩

/-! ## Draw range -/

/-- C11: for every non-negative stripe height the draw range satisfies
`0 <= drawStart <= drawEnd <= HEIGHT - 1`. -/
theorem draw_range_clamped (lineHeight : Int) (h : 0 ≤ lineHeight) :
    0 ≤ drawStart lineHeight ∧ drawStart lineHeight ≤ drawEnd lineHeight ∧
      drawEnd lineHeight ≤ HEIGHT - 1 := by
  have h1 : Int.tdiv lineHeight 2 = lineHeight / 2 := Int.tdiv_eq_ediv h (by decide)
  have h2 : Int.tdiv (-lineHeight) 2 = -(lineHeight / 2) := by rw [Int.neg_tdiv, h1]
  have h3 : Int.tdiv HEIGHT 2 = 360 := by decide
  unfold drawStart drawEnd
  rw [h2, h1, h3]
  simp only [HEIGHT]
  split_ifs <;> omega

theorem draw_range_clamped_witness :
    (0 : Int) ≤ 130 ∧ 0 ≤ drawStart 130 ∧ drawStart 130 ≤ drawEnd 130 ∧
      drawEnd 130 ≤ HEIGHT - 1 :=
  ⟨by decide, draw_range_clamped 130 (by decide)⟩

/-! ## Colour lookup -/

/-- C12, evaluated at a failing input: camera (0.5, 6.5) in the open spawn
cell, cosAngle = -1, sinAngle = 0, centre column.  The DDA stops at the
out-of-bounds cell (-1, 6); the colour lookup has no bounds test and reads
`map[-1 + 6 * 8] = map[47]`, the code of the grid cell (7, 5), and the base
colour is `wallColors[1]`. -/
theorem colour_lookup_reads_grid_when_out_of_bounds :
    checkCollision ⌊(1 / 2 : ℚ)⌋ ⌊(13 / 2 : ℚ)⌋ = true ∧
      castRay Rat.sqrt ⟨1 / 2, 13 / 2, 0, 0⟩ (rayDirX (-1) 0 (WIDTH / 2))
          (rayDirY (-1) 0 (WIDTH / 2)) 16 =
        some ⟨-1, 6, f64.fin (3 / 2), f64.pinf, 0⟩ ∧
      ((-1 : Int) < 0) ∧
      (-1 : Int) + 6 * 8 = 7 + 5 * 8 ∧
      mapRead (-1 + 6 * 8) = some (mapAt (7 + 5 * 8)) ∧
      baseColor (-1) 6 = wallColors[mapAt (7 + 5 * 8)]? ∧
      baseColor (-1) 6 = some 0x0000FF00 := by
  decide!

/-- C13: every cell code of the reference map other than 0 and 6 is below 5,
the number of initialised entries of `wallColors`, so it has a colour. -/
theorem wall_codes_have_colours (code : Nat) (hmem : code ∈ map) (h0 : code ≠ 0)
    (h6 : code ≠ 6) :
    code < wallColorsInitialised ∧ wallColorsInitialised ≤ wallColors.length ∧
      ∃ color, wallColors[code]? = some color := by
  have hall : ∀ c ∈ map, c ≠ 0 → c ≠ 6 →
      c < wallColorsInitialised ∧ wallColorsInitialised ≤ wallColors.length ∧
        (wallColors[c]?).isSome = true := by
    decide
  obtain ⟨h1, h2, h3⟩ := hall code hmem h0 h6
  exact ⟨h1, h2, Option.isSome_iff_exists.mp h3⟩

theorem wall_codes_have_colours_witness :
    3 ∈ map ∧ 3 < wallColorsInitialised ∧ wallColorsInitialised ≤ wallColors.length ∧
      ∃ color, wallColors[3]? = some color :=
  ⟨by decide, wall_codes_have_colours 3 (by decide) (by decide) (by decide)⟩

/-! ## Cached cosine and sine -/

theorem commit_angle (cam : Camera) (new : ℚ × ℚ) : (commit cam new).angle = cam.angle := by
  unfold commit
  split_ifs <;> rfl

theorem handleInput_angle (cam : Camera) (inp : TickInput) :
    (handleInput cam inp).angle = cam.angle := by
  unfold handleInput moveW moveS moveA moveD
  split_ifs <;> simp [commit_angle]

/-- C17 fails as stated: with the polynomial `a - a^3/6` standing for `sin`
(and `1 - a^2/2` for `cos`), one tick of 125 ms from the initial state with
`mouseX = 10` turns the angle to 1/8, and the cached `sinAngle` is
`-sin(camera.angle) = -383/3072`, not `sin(camera.angle)`. -/
theorem cached_sine_is_negated :
    (tick (fun a => 1 - a * a / 2) (fun a => a - a * a * a / 6)
        (initState (fun a => 1 - a * a / 2) (fun a => a - a * a * a / 6))
        ⟨⟨false, false, false, false, false⟩, frameDeltaTime 125, 10⟩).camera.angle = 1 / 8 ∧
      (tick (fun a => 1 - a * a / 2) (fun a => a - a * a * a / 6)
        (initState (fun a => 1 - a * a / 2) (fun a => a - a * a * a / 6))
        ⟨⟨false, false, false, false, false⟩, frameDeltaTime 125, 10⟩).cosAngle = 127 / 128 ∧
      (tick (fun a => 1 - a * a / 2) (fun a => a - a * a * a / 6)
        (initState (fun a => 1 - a * a / 2) (fun a => a - a * a * a / 6))
        ⟨⟨false, false, false, false, false⟩, frameDeltaTime 125, 10⟩).sinAngle = -(383 / 3072) ∧
      (fun a : ℚ => a - a * a * a / 6) (1 / 8) = 383 / 3072 ∧
      (tick (fun a => 1 - a * a / 2) (fun a => a - a * a * a / 6)
        (initState (fun a => 1 - a * a / 2) (fun a => a - a * a * a / 6))
        ⟨⟨false, false, false, false, false⟩, frameDeltaTime 125, 10⟩).sinAngle ≠
      (fun a : ℚ => a - a * a * a / 6)
        (tick (fun a => 1 - a * a / 2) (fun a => a - a * a * a / 6)
          (initState (fun a => 1 - a * a / 2) (fun a => a - a * a * a / 6))
          ⟨⟨false, false, false, false, false⟩, frameDeltaTime 125, 10⟩).camera.angle := by
  decide!

/-- C17 (amended): at the end of every tick the facing angle is the old angle
plus `mouseX * (ROTATION_SPEED * deltaTime)` (computed in `f64`, stored in
`f32`), the cached `cosAngle` equals `cos(camera.angle)` and the cached
`sinAngle` equals `-sin(camera.angle)`.  The movement step of the tick used
the pair cached before it; the next frame's ray directions and the next
tick's movement step use the new pair.  Before the first frame the angle is
0 and the cached values are `cos(0)` and `sin(0)`. -/
theorem cached_trig_after_tick (cosF sinF : ℚ → ℚ) (st : GameState) (inp next : Input)
    (x : Int) (angle : ℚ)
    (hangle : angle = f32.round (f64.round (st.camera.angle +
      f64.round ((inp.mouseX : ℚ) * f64.round (f64.round (1 / 10) * inp.deltaTime))))) :
    (tick cosF sinF st inp).camera.angle = angle ∧
      (tick cosF sinF st inp).cosAngle = cosF angle ∧
      (tick cosF sinF st inp).sinAngle = -sinF angle ∧
      (tick cosF sinF st inp).camera.x =
        (handleInput st.camera ⟨inp.keys, inp.deltaTime, st.cosAngle, st.sinAngle⟩).x ∧
      (tick cosF sinF st inp).camera.y =
        (handleInput st.camera ⟨inp.keys, inp.deltaTime, st.cosAngle, st.sinAngle⟩).y ∧
      columnRay (tick cosF sinF st inp) x =
        (f64.round (cosF angle + f64.round (-sinF angle * cameraX x)),
          f64.round (-sinF angle - f64.round (cosF angle * cameraX x))) ∧
      (tick cosF sinF (tick cosF sinF st inp) next).camera.x =
        (handleInput (tick cosF sinF st inp).camera
          ⟨next.keys, next.deltaTime, cosF angle, -sinF angle⟩).x ∧
      (tick cosF sinF (tick cosF sinF st inp) next).camera.y =
        (handleInput (tick cosF sinF st inp).camera
          ⟨next.keys, next.deltaTime, cosF angle, -sinF angle⟩).y ∧
      (initState cosF sinF).camera.angle = 0 ∧
      (initState cosF sinF).cosAngle = cosF 0 ∧
      (initState cosF sinF).sinAngle = sinF 0 := by
  have h0 : initCamera.angle = 0 := by decide!
  have ha : (tick cosF sinF st inp).camera.angle = angle := by
    rw [hangle]
    simp [tick, handleInput_angle, ROTATION_SPEED]
  have hc : (tick cosF sinF st inp).cosAngle = cosF angle := by
    rw [← ha]
    rfl
  have hs : (tick cosF sinF st inp).sinAngle = -sinF angle := by
    rw [← ha]
    rfl
  refine ⟨ha, hc, hs, rfl, rfl, ?_, ?_, ?_, h0, ?_, ?_⟩
  · simp [columnRay, rayDirX, rayDirY, hc, hs]
  · rw [← hc, ← hs]
    rfl
  · rw [← hc, ← hs]
    rfl
  · simp [initState, h0]
  · simp [initState, h0]

theorem cached_trig_after_tick_witness :
    (1 / 8 : ℚ) = f32.round (f64.round ((0 : ℚ) +
        f64.round (((10 : Int) : ℚ) * f64.round (f64.round (1 / 10) * frameDeltaTime 125)))) ∧
      (tick (fun a => 1 - a * a / 2) (fun a => a - a * a * a / 6)
        ⟨⟨1 / 2, 13 / 2, 0, 0⟩, 1, 0⟩
        ⟨⟨false, false, false, false, false⟩, frameDeltaTime 125, 10⟩).sinAngle =
        -(fun a : ℚ => a - a * a * a / 6) (1 / 8) :=
  ⟨by decide!,
    (cached_trig_after_tick (fun a => 1 - a * a / 2) (fun a => a - a * a * a / 6)
      ⟨⟨1 / 2, 13 / 2, 0, 0⟩, 1, 0⟩
      ⟨⟨false, false, false, false, false⟩, frameDeltaTime 125, 10⟩
      ⟨⟨true, false, false, false, false⟩, frameDeltaTime 8, 0⟩ 640 (1 / 8) (by decide!)).2.2.1⟩

/-! ## The stripe -/

theorem stripeLoop_frame (x : Int) (color : Nat) (hx0 : 0 ≤ x) (hxW : x < WIDTH) :
    ∀ (n : Nat) (y : Int) (pixels : Buffer), 0 ≤ y → (n ≠ 0 → y + n ≤ HEIGHT) →
      ∃ out, stripeLoop x color n y pixels = some out ∧
        (∀ row : Int, y ≤ row → row < y + n → out (x + row * WIDTH) = color) ∧
        (∀ i : Int, (∀ row : Int, y ≤ row → row < y + n → i ≠ x + row * WIDTH) →
          out i = pixels i) := by
  intro n
  induction n with
  | zero =>
    intro y pixels _ _
    refine ⟨pixels, rfl, ?_, fun i _ => rfl⟩
    intro row h1 h2
    simp at h2
    omega
  | succ n ih =>
    intro y pixels hy0 hyH0
    have hyH := hyH0 (Nat.succ_ne_zero n)
    have hin : 0 ≤ x + y * WIDTH ∧ x + y * WIDTH < WIDTH * HEIGHT := by
      simp only [WIDTH, HEIGHT] at *
      push_cast at hyH
      omega
    obtain ⟨out, hout, ha, hb⟩ := ih (y + 1) (Function.update pixels (x + y * WIDTH) color)
      (by omega) (by intro _; push_cast at hyH ⊢; omega)
    refine ⟨out, ?_, ?_, ?_⟩
    · simp only [stripeLoop, writePixel, if_pos hin, Option.some_bind]
      exact hout
    · intro row h1 h2
      rcases eq_or_lt_of_le h1 with heq | hlt
      · rw [← heq, hb (x + y * WIDTH)]
        · simp
        · intro row2 hr1 _
          simp only [WIDTH]
          omega
      · exact ha row (by omega) (by push_cast at h2 ⊢; omega)
    · intro i hi
      rw [hb i]
      · have hne : i ≠ x + y * WIDTH := hi y le_rfl (by push_cast; omega)
        simp [Function.update, hne]
      · intro row hr1 hr2
        exact hi row (by omega) (by push_cast at hr2 ⊢; omega)

theorem drawStart_nonneg (lineHeight : Int) : 0 ≤ drawStart lineHeight := by
  unfold drawStart
  simp only
  split_ifs <;> omega

theorem drawEnd_lt_height (lineHeight : Int) : drawEnd lineHeight ≤ HEIGHT - 1 := by
  unfold drawEnd
  simp only [HEIGHT]
  split_ifs <;> omega

/-- C16: for every column `x` in `[0, WIDTH)`, every stripe height and every
colour, the stripe loop runs without leaving the buffer; every row `y` with
`drawStart <= y < drawEnd` has its index `x + y * WIDTH` inside
`[0, WIDTH * HEIGHT)` and receives the colour, and every other buffer entry
is unchanged. -/
theorem stripe_write_frame (pixels : Buffer) (x : Int) (lineHeight : Int) (color : Nat)
    (hx0 : 0 ≤ x) (hxW : x < WIDTH) :
    ∃ out, drawStripe pixels x color (drawStart lineHeight) (drawEnd lineHeight) = some out ∧
      (∀ y : Int, drawStart lineHeight ≤ y → y < drawEnd lineHeight →
        0 ≤ x + y * WIDTH ∧ x + y * WIDTH < WIDTH * HEIGHT ∧ out (x + y * WIDTH) = color) ∧
      (∀ i : Int, (∀ y : Int, drawStart lineHeight ≤ y → y < drawEnd lineHeight →
          i ≠ x + y * WIDTH) → out i = pixels i) := by
  have hs := drawStart_nonneg lineHeight
  have he := drawEnd_lt_height lineHeight
  have hcount : (drawEnd lineHeight - drawStart lineHeight).toNat ≠ 0 →
      drawStart lineHeight + ((drawEnd lineHeight - drawStart lineHeight).toNat : Int)
        ≤ HEIGHT := by
    intro hne
    simp only [HEIGHT] at he ⊢
    omega
  obtain ⟨out, hout, ha, hb⟩ := stripeLoop_frame x color hx0 hxW
    (drawEnd lineHeight - drawStart lineHeight).toNat (drawStart lineHeight) pixels hs hcount
  refine ⟨out, hout, ?_, ?_⟩
  · intro y h1 h2
    refine ⟨?_, ?_, ha y h1 (by omega)⟩
    · simp only [WIDTH] at *
      omega
    · simp only [WIDTH, HEIGHT] at *
      omega
  · intro i hi
    exact hb i (fun row h1 h2 => hi row h1 (by omega))

theorem stripe_write_frame_witness :
    (0 : Int) ≤ 640 ∧ (640 : Int) < WIDTH ∧
      ∃ out, drawStripe (fun _ => 0) 640 0x00BF0000 (drawStart 130) (drawEnd 130) = some out ∧
        (∀ y : Int, drawStart 130 ≤ y → y < drawEnd 130 →
          0 ≤ 640 + y * WIDTH ∧ 640 + y * WIDTH < WIDTH * HEIGHT ∧
            out (640 + y * WIDTH) = 0x00BF0000) ∧
        (∀ i : Int, (∀ y : Int, drawStart 130 ≤ y → y < drawEnd 130 →
            i ≠ 640 + y * WIDTH) → out i = (fun _ => 0) i) :=
  ⟨by decide, by decide,
    stripe_write_frame (fun _ => 0) 640 130 0x00BF0000 (by decide) (by decide)⟩

/-! ## Darkening -/

theorem channel_lt (color k : Nat) : channel color k < 256 := by
  unfold channel
  have := @Nat.and_le_right (color >>> k) 0xFF
  omega

theorem channel_eq_div_mod (color k : Nat) : channel color k = color / 2 ^ k % 256 := by
  unfold channel
  rw [Nat.shiftRight_eq_div_pow]
  exact Nat.and_pow_two_sub_one_eq_mod _ 8

theorem pack_eq (a b c d : Nat) (ha : a < 256) (hb : b < 256) (hc : c < 256) (hd : d < 256) :
    (a <<< 24) % 2 ^ 32 ||| (b <<< 16) % 2 ^ 32 ||| (c <<< 8) % 2 ^ 32 ||| (d <<< 0) % 2 ^ 32 =
      a * 16777216 + b * 65536 + c * 256 + d := by
  simp only [Nat.shiftLeft_eq]
  norm_num
  have m1 : a * 16777216 % 4294967296 = 2 ^ 24 * a := by omega
  have m2 : b * 65536 % 4294967296 = b * 65536 := by omega
  have m3 : c * 256 % 4294967296 = c * 256 := by omega
  have m4 : d % 4294967296 = d := by omega
  rw [m1, m2, m3, m4]
  rw [← Nat.mul_add_lt_is_or (by omega) a]
  have r1 : 2 ^ 24 * a + b * 65536 = 2 ^ 16 * (a * 256 + b) := by omega
  rw [r1, ← Nat.mul_add_lt_is_or (by omega) (a * 256 + b)]
  have r2 : 2 ^ 16 * (a * 256 + b) + c * 256 = 2 ^ 8 * (a * 65536 + b * 256 + c) := by omega
  rw [r2, ← Nat.mul_add_lt_is_or (by omega) (a * 65536 + b * 256 + c)]
  omega

theorem toU32_fin_of_bounds (q : ℚ) (n : Nat) (h0 : 0 ≤ q) (hn : q ≤ n) (hlt : n < 256) :
    f64.toU32 (f64.fin q) = some ⌊q⌋.toNat ∧ ⌊q⌋.toNat ≤ n := by
  have hfl0 : 0 ≤ ⌊q⌋ := Int.floor_nonneg.mpr h0
  have hfl1 : ⌊q⌋ ≤ (n : Int) := by
    have : ⌊q⌋ ≤ ⌊(n : ℚ)⌋ := Int.floor_mono hn
    simpa using this
  refine ⟨?_, by omega⟩
  simp only [f64.toU32]
  rw [truncQ_of_nonneg h0, if_pos ⟨hfl0, by omega⟩]

theorem darkenChannel_fin (color : Nat) (s : ℚ) (k : Nat) (hs0 : 0 ≤ s) (hs1 : s ≤ 1) :
    darkenChannel color (f64.fin s) k =
        some ((⌊f64.round ((channel color k : ℚ) * s)⌋.toNat <<< k) % 2 ^ 32) ∧
      ⌊f64.round ((channel color k : ℚ) * s)⌋.toNat ≤ channel color k := by
  have hch : (0 : ℚ) ≤ (channel color k : ℚ) := Nat.cast_nonneg _
  have hlt := channel_lt color k
  have h0 : 0 ≤ (channel color k : ℚ) * s := mul_nonneg hch hs0
  have h1 : (channel color k : ℚ) * s ≤ ((channel color k : Int) : ℚ) := by
    have := mul_le_mul_of_nonneg_left hs1 hch
    simpa using this
  have habs : |(channel color k : ℚ) * s| < (2 : ℚ) ^ 53 := by
    rw [abs_of_nonneg h0]
    have h256 : ((channel color k : Int) : ℚ) < 256 := by exact_mod_cast hlt
    have : (256 : ℚ) < (2 : ℚ) ^ 53 := by norm_num
    linarith
  have hr0 : 0 ≤ f64.round ((channel color k : ℚ) * s) := roundTo_nonneg 53 _ h0
  have hr1 : f64.round ((channel color k : ℚ) * s) ≤ ((channel color k : Nat) : ℚ) := by
    have := roundTo_le_int 53 _ (channel color k : Int) habs h1
    simpa [f64.round] using this
  obtain ⟨hu, hle⟩ := toU32_fin_of_bounds _ (channel color k) hr0 hr1 hlt
  refine ⟨?_, hle⟩
  unfold darkenChannel
  simp only [f64.mul, f64.rnd, hu, Option.map_some']

/-- C15: for every packed base colour and every shade factor `s` in `[0, 1]`
the darkening expression is defined, its result fits in 32 bits, and each of
its four 8-bit channels `(out >> k) & 0xFF` is the truncation of the `f64`
product of the same channel of the base colour and `s`, at most that base
channel: a function of that channel and `s` alone. -/
theorem darken_per_channel (color : Nat) (s : ℚ) (hs0 : 0 ≤ s) (hs1 : s ≤ 1) :
    ∃ out, darken color (f64.fin s) = some out ∧ out < 2 ^ 32 ∧
      ∀ k ∈ [24, 16, 8, 0],
        out / 2 ^ k % 256 = ⌊f64.round (((color / 2 ^ k % 256 : Nat) : ℚ) * s)⌋.toNat ∧
          out / 2 ^ k % 256 ≤ color / 2 ^ k % 256 := by
  obtain ⟨e24, l24⟩ := darkenChannel_fin color s 24 hs0 hs1
  obtain ⟨e16, l16⟩ := darkenChannel_fin color s 16 hs0 hs1
  obtain ⟨e8, l8⟩ := darkenChannel_fin color s 8 hs0 hs1
  obtain ⟨e0, l0⟩ := darkenChannel_fin color s 0 hs0 hs1
  have b24 := channel_lt color 24
  have b16 := channel_lt color 16
  have b8 := channel_lt color 8
  have b0 := channel_lt color 0
  refine ⟨_, by simp only [darken, e24, e16, e8, e0, Option.some_bind]; rfl, ?_, ?_⟩
  · rw [pack_eq _ _ _ _ (by omega) (by omega) (by omega) (by omega)]
    omega
  · intro k hk
    rw [pack_eq _ _ _ _ (by omega) (by omega) (by omega) (by omega)]
    simp only [List.mem_cons, List.mem_singleton, List.not_mem_nil, or_false] at hk
    rcases hk with rfl | rfl | rfl | rfl
    · rw [← channel_eq_div_mod color 24]
      norm_num
      constructor <;> omega
    · rw [← channel_eq_div_mod color 16]
      norm_num
      constructor <;> omega
    · rw [← channel_eq_div_mod color 8]
      norm_num
      constructor <;> omega
    · rw [← channel_eq_div_mod color 0]
      norm_num
      constructor <;> omega

theorem darken_per_channel_witness :
    (0 : ℚ) ≤ f64.round (3 / 5) ∧ f64.round (3 / 5) ≤ 1 ∧
      darken 0x00FFFFFF (f64.fin (f64.round (3 / 5))) = some 0x00999999 ∧
      ∃ out, darken 0x00FFFFFF (f64.fin (f64.round (3 / 5))) = some out ∧ out < 2 ^ 32 ∧
        ∀ k ∈ [24, 16, 8, 0],
          out / 2 ^ k % 256 =
              ⌊f64.round (((0x00FFFFFF / 2 ^ k % 256 : Nat) : ℚ) * f64.round (3 / 5))⌋.toNat ∧
            out / 2 ^ k % 256 ≤ 0x00FFFFFF / 2 ^ k % 256 :=
  ⟨by decide!, by decide!, by decide!,
    darken_per_channel 0x00FFFFFF (f64.round (3 / 5)) (by decide!) (by decide!)⟩

/-! ## Zero direction component -/

theorem ddaStep_of_x_inf (r : Ray) (δ : ℚ) (hδ : r.deltaDistY = f64.fin δ) (s : Dda) (a : ℚ)
    (hsx : s.sideDistX = f64.pinf) (hsy : s.sideDistY = f64.fin a) :
    ddaStep r s =
      { s with sideDistY := f64.fin (a + δ), mapY := s.mapY + r.stepY, side := 1 } := by
  unfold ddaStep
  rw [hsx, hsy, hδ]
  simp [f64.lt, f64.add]

theorem ddaStep_of_y_inf (r : Ray) (δ : ℚ) (hδ : r.deltaDistX = f64.fin δ) (s : Dda) (a : ℚ)
    (hsx : s.sideDistX = f64.fin a) (hsy : s.sideDistY = f64.pinf) :
    ddaStep r s =
      { s with sideDistX := f64.fin (a + δ), mapX := s.mapX + r.stepX, side := 0 } := by
  unfold ddaStep
  rw [hsx, hsy, hδ]
  simp [f64.lt, f64.add]

theorem iterate_of_x_inf (r : Ray) (δ : ℚ) (hδ : r.deltaDistY = f64.fin δ) (s : Dda) (a : ℚ)
    (hsx : s.sideDistX = f64.pinf) (hsy : s.sideDistY = f64.fin a) :
    ∀ n : Nat, ((ddaStep r)^[n] s).sideDistX = f64.pinf ∧
      (∃ b, ((ddaStep r)^[n] s).sideDistY = f64.fin b) ∧
      ((ddaStep r)^[n] s).mapX = s.mapX ∧ (1 ≤ n → ((ddaStep r)^[n] s).side = 1) := by
  intro n
  induction n with
  | zero => exact ⟨hsx, ⟨a, hsy⟩, rfl, fun h => absurd h (by decide)⟩
  | succ n ih =>
    obtain ⟨h1, ⟨b, h2⟩, h3, -⟩ := ih
    rw [Function.iterate_succ_apply', ddaStep_of_x_inf r δ hδ _ b h1 h2]
    exact ⟨h1, ⟨_, rfl⟩, h3, fun _ => rfl⟩

theorem iterate_of_y_inf (r : Ray) (δ : ℚ) (hδ : r.deltaDistX = f64.fin δ) (s : Dda) (a : ℚ)
    (hsx : s.sideDistX = f64.fin a) (hsy : s.sideDistY = f64.pinf) :
    ∀ n : Nat, ((ddaStep r)^[n] s).sideDistY = f64.pinf ∧
      (∃ b, ((ddaStep r)^[n] s).sideDistX = f64.fin b) ∧
      ((ddaStep r)^[n] s).mapY = s.mapY ∧ (1 ≤ n → ((ddaStep r)^[n] s).side = 0) := by
  intro n
  induction n with
  | zero => exact ⟨hsy, ⟨a, hsx⟩, rfl, fun h => absurd h (by decide)⟩
  | succ n ih =>
    obtain ⟨h1, ⟨b, h2⟩, h3, -⟩ := ih
    rw [Function.iterate_succ_apply', ddaStep_of_y_inf r δ hδ _ b h2 h1]
    exact ⟨h1, ⟨_, rfl⟩, h3, fun _ => rfl⟩

theorem ddaInit_x_zero (sq : ℚ → ℚ) (cam : Camera) (dY : ℚ) (hdY : dY ≠ 0) :
    (ddaInit cam (mkRay sq 0 dY)).sideDistX = f64.pinf ∧
      (∃ a, (ddaInit cam (mkRay sq 0 dY)).sideDistY = f64.fin a) ∧
      (ddaInit cam (mkRay sq 0 dY)).mapX = f64.truncQ cam.x ∧
      (ddaInit cam (mkRay sq 0 dY)).mapY = f64.truncQ cam.y := by
  obtain ⟨hdy, hdx, -, hrx, hry⟩ := mkRay_y_axis sq dY hdY
  have hfrac : 0 < (f64.truncQ cam.x : ℚ) + 1 - cam.x := by
    have := lt_truncQ_add_one cam.x
    linarith
  refine ⟨?_, ?_, rfl, rfl⟩
  · simp [ddaInit, hrx, hdx, f64.mul, f64.signedInf, hfrac]
  · by_cases hneg : dY < 0
    · exact ⟨_, by simp [ddaInit, hry, hdy, f64.mul, hneg]; rfl⟩
    · exact ⟨_, by simp [ddaInit, hry, hdy, f64.mul, hneg]; rfl⟩

theorem ddaInit_y_zero (sq : ℚ → ℚ) (cam : Camera) (dX : ℚ) (hdX : dX ≠ 0) :
    (ddaInit cam (mkRay sq dX 0)).sideDistY = f64.pinf ∧
      (∃ a, (ddaInit cam (mkRay sq dX 0)).sideDistX = f64.fin a) ∧
      (ddaInit cam (mkRay sq dX 0)).mapX = f64.truncQ cam.x ∧
      (ddaInit cam (mkRay sq dX 0)).mapY = f64.truncQ cam.y := by
  obtain ⟨hdx, hdy, -, hrx, hry⟩ := mkRay_x_axis sq dX hdX
  have hfrac : 0 < (f64.truncQ cam.y : ℚ) + 1 - cam.y := by
    have := lt_truncQ_add_one cam.y
    linarith
  refine ⟨?_, ?_, rfl, rfl⟩
  · simp [ddaInit, hry, hdy, f64.mul, f64.signedInf, hfrac]
  · by_cases hneg : dX < 0
    · exact ⟨_, by simp [ddaInit, hrx, hdx, f64.mul, hneg]; rfl⟩
    · exact ⟨_, by simp [ddaInit, hrx, hdx, f64.mul, hneg]; rfl⟩

/-- C14 fails as stated: with rayDirX = 0 and rayDirY = 1 the expression for
deltaDistX is `sqrt(1 + (1 * 1) / (0 * 0))`: the divisor is zero, there is no
guard, and the quotient is the IEEE value `+inf`. -/
theorem deltaDist_divides_by_zero :
    deltaDist Rat.sqrt 0 1 =
        f64.sqrt Rat.sqrt (f64.add (f64.fin 1) (f64.div (f64.fin (1 * 1)) (f64.fin (0 * 0)))) ∧
      (0 : ℚ) * 0 = 0 ∧
      f64.div (f64.fin (1 * 1)) (f64.fin (0 * 0)) = f64.pinf ∧
      (mkRay Rat.sqrt 0 1).deltaDistX = f64.pinf := by
  decide!

/-- C14 (amended): for every ray with rayDirX = 0 and rayDirY nonzero, the
division by zero in deltaDistX yields `+inf` (there is no guard), the initial
sideDistX is `+inf` too, and however many iterations the DDA runs it never
steps along x: mapX stays the camera column and every step is a y step.  The
same holds with x and y exchanged. -/
theorem zero_component_never_stepped (sq : ℚ → ℚ) (cam : Camera) (d : ℚ) (hd : d ≠ 0) :
    ((mkRay sq 0 d).deltaDistX = f64.pinf ∧
      (ddaInit cam (mkRay sq 0 d)).sideDistX = f64.pinf ∧
      ∀ n : Nat, ((ddaStep (mkRay sq 0 d))^[n] (ddaInit cam (mkRay sq 0 d))).mapX =
          f64.truncQ cam.x ∧
        (1 ≤ n → ((ddaStep (mkRay sq 0 d))^[n] (ddaInit cam (mkRay sq 0 d))).side = 1)) ∧
    ((mkRay sq d 0).deltaDistY = f64.pinf ∧
      (ddaInit cam (mkRay sq d 0)).sideDistY = f64.pinf ∧
      ∀ n : Nat, ((ddaStep (mkRay sq d 0))^[n] (ddaInit cam (mkRay sq d 0))).mapY =
          f64.truncQ cam.y ∧
        (1 ≤ n → ((ddaStep (mkRay sq d 0))^[n] (ddaInit cam (mkRay sq d 0))).side = 0)) := by
  constructor
  · obtain ⟨hdy, hdx, -, -, -⟩ := mkRay_y_axis sq d hd
    obtain ⟨hsx, ⟨a, hsy⟩, hmx, -⟩ := ddaInit_x_zero sq cam d hd
    refine ⟨hdx, hsx, fun n => ?_⟩
    obtain ⟨-, -, h3, h4⟩ := iterate_of_x_inf _ _ hdy _ a hsx hsy n
    exact ⟨h3.trans hmx, h4⟩
  · obtain ⟨hdx, hdy, -, -, -⟩ := mkRay_x_axis sq d hd
    obtain ⟨hsy, ⟨a, hsx⟩, -, hmy⟩ := ddaInit_y_zero sq cam d hd
    refine ⟨hdy, hsy, fun n => ?_⟩
    obtain ⟨-, -, h3, h4⟩ := iterate_of_y_inf _ _ hdx _ a hsx hsy n
    exact ⟨h3.trans hmy, h4⟩

theorem zero_component_never_stepped_witness :
    (1 : ℚ) ≠ 0 ∧ (mkRay Rat.sqrt 0 1).deltaDistX = f64.pinf ∧
      (ddaInit ⟨3 / 2, 3 / 2, 0, 0⟩ (mkRay Rat.sqrt 0 1)).sideDistX = f64.pinf ∧
      ∀ n : Nat, ((ddaStep (mkRay Rat.sqrt 0 1))^[n]
          (ddaInit ⟨3 / 2, 3 / 2, 0, 0⟩ (mkRay Rat.sqrt 0 1))).mapX =
          f64.truncQ (3 / 2) ∧
        (1 ≤ n → ((ddaStep (mkRay Rat.sqrt 0 1))^[n]
          (ddaInit ⟨3 / 2, 3 / 2, 0, 0⟩ (mkRay Rat.sqrt 0 1))).side = 1) :=
  ⟨by norm_num,
    (zero_component_never_stepped Rat.sqrt ⟨3 / 2, 3 / 2, 0, 0⟩ 1 (by norm_num)).1⟩

/-! ## The state in which the DDA stops -/

theorem ddaTrace_final (r : Ray) :
    ∀ (fuel : Nat) (s : Dda) (tr : List Dda), ddaTrace r fuel s = some tr →
      ∃ n : Nat, tr.getLast? = some ((ddaStep r)^[n + 1] s) ∧
        hitTest ((ddaStep r)^[n + 1] s).mapX ((ddaStep r)^[n + 1] s).mapY = true ∧
        ∀ m : Nat, m < n →
          hitTest ((ddaStep r)^[m + 1] s).mapX ((ddaStep r)^[m + 1] s).mapY = false := by
  intro fuel
  induction fuel with
  | zero => intro s tr h; simp [ddaTrace] at h
  | succ f ih =>
    intro s tr h
    rw [ddaTrace_succ] at h
    by_cases hh : hitTest (ddaStep r s).mapX (ddaStep r s).mapY = true
    · rw [if_pos hh] at h
      obtain rfl : [ddaStep r s] = tr := by simpa using h
      exact ⟨0, rfl, hh, fun m hm => absurd hm (Nat.not_lt_zero m)⟩
    · rw [if_neg hh] at h
      obtain ⟨tr2, h2, rfl⟩ := Option.map_eq_some.mp h
      obtain ⟨n, hlast, hhit, hpre⟩ := ih _ _ h2
      refine ⟨n + 1, ?_, ?_, ?_⟩
      · cases tr2 with
        | nil => simp at hlast
        | cons b l =>
          rw [List.getLast?_cons_cons, hlast]
          rfl
      · exact hhit
      · intro m hm
        cases m with
        | zero => simpa using hh
        | succ m => exact hpre m (by omega)

theorem ddaTrace_exists (sq : ℚ → ℚ) (cam : Camera) (dirX dirY : ℚ)
    (hx0 : 0 ≤ f64.truncQ cam.x) (hx8 : f64.truncQ cam.x < 8)
    (hy0 : 0 ≤ f64.truncQ cam.y) (hy8 : f64.truncQ cam.y < 8) (fuel : Nat) (hfuel : 16 ≤ fuel) :
    ∃ tr, ddaTrace (mkRay sq dirX dirY) fuel (ddaInit cam (mkRay sq dirX dirY)) = some tr := by
  have hsx := mkRay_stepX sq dirX dirY
  have hsy := mkRay_stepY sq dirX dirY
  have hleft := stepsLeft_le _ hsx hsy (ddaInit cam (mkRay sq dirX dirY)) hx0 hx8 hy0 hy8
  obtain ⟨tr, htr, -, -⟩ := ddaTrace_bounded _ hsx hsy 14
    (ddaInit cam (mkRay sq dirX dirY)) hx0 hx8 hy0 hy8 hleft
  exact ⟨tr, ddaTrace_mono _ _ _ _ htr fuel (by omega)⟩

theorem castRay_final (sq : ℚ → ℚ) (cam : Camera) (dirX dirY : ℚ)
    (hcam : checkCollision ⌊cam.x⌋ ⌊cam.y⌋ = true) (fuel : Nat) (hfuel : 16 ≤ fuel) :
    ∃ n : Nat,
      castRay sq cam dirX dirY fuel =
        some ((ddaStep (mkRay sq dirX dirY))^[n + 1] (ddaInit cam (mkRay sq dirX dirY))) ∧
      checkCollision
        ((ddaStep (mkRay sq dirX dirY))^[n] (ddaInit cam (mkRay sq dirX dirY))).mapX
        ((ddaStep (mkRay sq dirX dirY))^[n] (ddaInit cam (mkRay sq dirX dirY))).mapY = true := by
  obtain ⟨htx, hty⟩ := checkCollision_floor_trunc hcam
  obtain ⟨hx0, hx8, hy0, hy8⟩ := checkCollision_inBounds hcam
  obtain ⟨tr, htr⟩ := ddaTrace_exists sq cam dirX dirY (by rw [htx]; exact hx0)
    (by rw [htx]; exact hx8) (by rw [hty]; exact hy0) (by rw [hty]; exact hy8) fuel hfuel
  obtain ⟨n, hlast, -, hpre⟩ := ddaTrace_final _ _ _ _ htr
  refine ⟨n, ?_, ?_⟩
  · unfold castRay
    rw [htr]
    exact hlast
  · cases n with
    | zero =>
      show checkCollision (f64.truncQ cam.x) (f64.truncQ cam.y) = true
      rw [htx, hty]
      exact hcam
    | succ m =>
      have := hpre m (Nat.lt_succ_self m)
      rw [hitTest_eq_not_checkCollision] at this
      simpa using this

theorem open_cell_shape (x y : Int) (h : checkCollision x y = true) :
    (1 ≤ x ∧ x ≤ 6 ∧ 1 ≤ y ∧ y ≤ 6) ∨ (x = 0 ∧ y = 6) := by
  obtain ⟨hx0, hx8, hy0, hy8⟩ := checkCollision_inBounds h
  interval_cases x <;> interval_cases y <;> first | omega | (revert h; decide)

theorem map_getD_lt (n : Nat) : map.getD n 0 < 7 := by
  by_cases hn : n < 64
  · interval_cases n <;> decide
  · rw [List.getD_eq_default _ _ (by simpa [map] using hn)]
    decide

theorem mapAt_lt (i : Int) : mapAt i < 7 := map_getD_lt _

theorem baseColor_of_index (mapX mapY : Int) (h0 : 0 ≤ mapX + mapY * 8)
    (h64 : mapX + mapY * 8 < 64) :
    mapRead (mapX + mapY * 8) = some (mapAt (mapX + mapY * 8)) ∧
      ∃ color, baseColor mapX mapY = some color := by
  have hr : mapRead (mapX + mapY * 8) = some (mapAt (mapX + mapY * 8)) := by
    unfold mapRead
    rw [if_pos ⟨h0, h64⟩]
  refine ⟨hr, ?_⟩
  have hlt : mapAt (mapX + mapY * 8) < wallColors.length := by
    have := mapAt_lt (mapX + mapY * 8)
    simpa [wallColors] using this
  refine ⟨wallColors[mapAt (mapX + mapY * 8)], ?_⟩
  unfold baseColor
  rw [hr, Option.some_bind]
  exact List.getElem?_eq_getElem hlt

/-- C19: on the reference map, for every camera position inside an open cell,
every ray direction and every `sqrt`, the DDA stops in a cell whose index
`mapX + 8 * mapY` lies in `[0, 64)`, the code read there is below 7, the
length of `wallColors`, and the base colour is defined; the cell (-1, 6),
reached through the open spawn cell, gives the index 47. -/
theorem colour_index_in_range (sq : ℚ → ℚ) (cam : Camera) (dirX dirY : ℚ)
    (hcam : checkCollision ⌊cam.x⌋ ⌊cam.y⌋ = true) (fuel : Nat) (hfuel : 16 ≤ fuel) :
    (∃ (last : Dda) (code color : Nat), castRay sq cam dirX dirY fuel = some last ∧
      0 ≤ last.mapX + 8 * last.mapY ∧ last.mapX + 8 * last.mapY < 64 ∧
      mapRead (last.mapX + last.mapY * 8) = some code ∧ code < 7 ∧
      wallColors.length = 7 ∧ baseColor last.mapX last.mapY = some color) ∧
    ((-1 : Int) + 8 * 6 = 47 ∧ mapRead (-1 + 6 * 8) = some 1) := by
  refine ⟨?_, by decide, by decide⟩
  obtain ⟨n, hcast, hopen⟩ := castRay_final sq cam dirX dirY hcam fuel hfuel
  have hsx := mkRay_stepX sq dirX dirY
  have hsy := mkRay_stepY sq dirX dirY
  have hshape := open_cell_shape _ _ hopen
  have hidx : 0 ≤ ((ddaStep (mkRay sq dirX dirY))^[n + 1]
        (ddaInit cam (mkRay sq dirX dirY))).mapX +
        ((ddaStep (mkRay sq dirX dirY))^[n + 1] (ddaInit cam (mkRay sq dirX dirY))).mapY * 8 ∧
      ((ddaStep (mkRay sq dirX dirY))^[n + 1] (ddaInit cam (mkRay sq dirX dirY))).mapX +
        ((ddaStep (mkRay sq dirX dirY))^[n + 1] (ddaInit cam (mkRay sq dirX dirY))).mapY * 8
        < 64 := by
    rw [Function.iterate_succ_apply']
    rcases ddaStep_cases (mkRay sq dirX dirY)
      ((ddaStep (mkRay sq dirX dirY))^[n] (ddaInit cam (mkRay sq dirX dirY)))
      with ⟨e1, e2, -⟩ | ⟨e1, e2, -⟩ <;> rw [e1, e2] <;> omega
  obtain ⟨hread, color, hcol⟩ := baseColor_of_index _ _ hidx.1 hidx.2
  refine ⟨_, _, color, hcast, by omega, by omega, hread, mapAt_lt _, by decide, hcol⟩

theorem colour_index_in_range_witness :
    checkCollision ⌊(1 / 2 : ℚ)⌋ ⌊(13 / 2 : ℚ)⌋ = true ∧
      ∃ (last : Dda) (code color : Nat),
        castRay Rat.sqrt ⟨1 / 2, 13 / 2, 0, 0⟩ (-1) 0 16 = some last ∧
        0 ≤ last.mapX + 8 * last.mapY ∧ last.mapX + 8 * last.mapY < 64 ∧
        mapRead (last.mapX + last.mapY * 8) = some code ∧ code < 7 ∧
        wallColors.length = 7 ∧ baseColor last.mapX last.mapY = some color :=
  ⟨by decide!,
    (colour_index_in_range Rat.sqrt ⟨1 / 2, 13 / 2, 0, 0⟩ (-1) 0 (by decide!) 16
      (by norm_num)).1⟩

end From1992
